import Mathlib

/-!
Verification development for the RRT motion-planning core
(`src/pyroboplan/planning/rrt.py`).

The configuration space is embedded as `ℚ` (a fixed-length joint vector of
dimension one); the external collision oracle `check_collisions_at_state` is a
parameter `collides : ℚ → Bool`.  Wall-clock timeout and the random sampler are
threaded explicitly as a finite list of per-iteration events: an empty
remainder of the list plays the role of the timeout, and each event carries the
outcome of the goal-biasing draw together with the random sample.

The `Node`/`Graph` data structure (`planning/graph.py`), the path discretizer
(`planning/utils.py`) and the distance / path-collision helpers
(`core/utils.py`) are not part of the given sources; they are modelled from the
specification, as marked on each definition.
-/

namespace RRT

/-- A configuration: one point of the mechanism's joint space. -/
abbrev Config := ℚ

/-- Modelled from the spec (`planning/graph.py` is missing): a tree node wraps
a configuration, an optional parent (an index into the owning graph's node
storage, per the spec's design note on parent back-references) and a cost. -/
structure Node where
  q : Config
  parent : Option Nat
  cost : ℚ
deriving DecidableEq, Repr, Inhabited

/-- Modelled from the spec (`planning/graph.py` is missing): an edge between
two nodes (by index) with a cost equal to the configuration distance between
its endpoints. -/
structure Edge where
  nodeA : Nat
  nodeB : Nat
  cost : ℚ
deriving DecidableEq, Repr

/-- Modelled from the spec (`planning/graph.py` is missing): a graph owns a
set of nodes and a set of edges. -/
structure Graph where
  nodes : List Node
  edges : List Edge
deriving DecidableEq, Repr

/-- Modelled from the spec (`core/utils.py` is external): the nonnegative
distance between two configurations; in dimension one, `|a - b|`. -/
def configuration_distance (a b : Config) : ℚ := |a - b|

/-- Modelled from the spec (`core/utils.py` is external): a discretized path
is in collision when some sample along it is in collision. -/
def check_collisions_along_path (collides : Config → Bool) (path : List Config) : Bool :=
  path.any collides

/-- Modelled from the spec (`planning/utils.py` is missing): an ordered
sequence of configurations from `q_from` to `q_to` inclusive, spaced no
farther apart than `step`: uniform subdivision into
`max 1 ⌈dist / step⌉` intervals. -/
def discretize_joint_space_path (q_from q_to step : ℚ) : List Config :=
  let n : ℕ := max 1 (configuration_distance q_from q_to / step).ceil.toNat
  (List.range (n + 1)).map fun k : ℕ => (q_from + (k : ℚ) * (q_to - q_from) / (n : ℚ))

/-- One step of the nearest-neighbor linear scan: the accumulator is
(next index, best index so far, best distance so far), updated on a strict
improvement only (first-encountered tie-break). -/
def nearestStep (q : Config) (acc : Nat × Nat × ℚ) (n : Node) : Nat × Nat × ℚ :=
  let d := configuration_distance n.q q
  if d < acc.2.2 then (acc.1 + 1, acc.1, d) else (acc.1 + 1, acc.2.1, acc.2.2)

/-- Modelled from the spec (`planning/graph.py` is missing): nearest-neighbor
query, a linear scan returning the index of the node whose configuration
minimizes the distance to `q`, ties resolving to the first encountered. -/
def get_nearest_node (g : Graph) (q : Config) : Nat :=
  (g.nodes.foldl (nearestStep q)
    (0, 0, configuration_distance (g.nodes.headD default).q q)).2.1

/-- Options for RRT planning (`RRTPlannerOptions`).  `max_rewire_dist = none`
models `np.inf` (no rewiring radius restriction).  `max_planning_time` and
`goal_biasing_probability` only influence the wall clock and the random draws,
which are threaded explicitly as the event list, so they are carried but not
read by the embedded algorithm. -/
structure RRTPlannerOptions where
  max_angle_step : ℚ := 1/20
  max_connection_dist : ℚ := 1/5
  rrt_connect : Bool := false
  bidirectional_rrt : Bool := false
  rrt_star : Bool := false
  max_rewire_dist : Option ℚ := none
  max_planning_time : ℚ := 10
  goal_biasing_probability : ℚ := 0
deriving Repr

/-- `new_distance > options.max_rewire_dist`, with `none` playing `np.inf`. -/
def exceedsRewireDist (opts : RRTPlannerOptions) (d : ℚ) : Bool :=
  match opts.max_rewire_dist with
  | none => false
  | some m => decide (d > m)

/-- The loop body of `RRTPlanner.extend_or_connect`, with the increment
precomputed by the caller and an explicit fuel bound (the source loop runs
until its `terminated` flag is set; `extendFuel` below is enough fuel for the
flag to be reached first). -/
def extendLoop (collides : Config → Bool) (opts : RRTPlannerOptions)
    (q_sample q_increment : Config) :
    Nat → Config → Option Config → Option Config
  | 0, _, q_out => q_out
  | fuel + 1, q_cur, q_out =>
    let reachedSample :=
      !decide (configuration_distance q_cur q_sample > opts.max_connection_dist)
    let q_extend :=
      if configuration_distance q_cur q_sample > opts.max_connection_dist then
        q_cur + q_increment
      else q_sample
    let ok := !(collides q_extend) &&
      !(check_collisions_along_path collides
        (discretize_joint_space_path q_cur q_extend opts.max_angle_step))
    if ok then
      if reachedSample || !opts.rrt_connect then some q_extend
      else extendLoop collides opts q_sample q_increment fuel q_extend (some q_extend)
    else q_out

/-- Fuel sufficient for `extendLoop` to reach its termination flag. -/
def extendFuel (opts : RRTPlannerOptions) (parent_q q_sample : Config) : Nat :=
  (configuration_distance parent_q q_sample / opts.max_connection_dist).floor.toNat + 2

/-- `RRTPlanner.extend_or_connect`: extends from the parent configuration
toward the sample in steps no larger than `max_connection_dist`; the increment
is `max_connection_dist * q_diff / ‖q_diff‖`. -/
def extend_or_connect (collides : Config → Bool) (opts : RRTPlannerOptions)
    (parent_q q_sample : Config) : Option Config :=
  let q_diff := q_sample - parent_q
  let q_increment := opts.max_connection_dist * q_diff / |q_diff|
  extendLoop collides opts q_sample q_increment
    (extendFuel opts parent_q q_sample) parent_q none

/-- State of the RRT* rewiring loop inside `add_node_to_tree`: the current
tree (only the new node's entry is ever modified), the current edge incident
to the new node, and the running `min_cost`. -/
structure RewireState where
  tree : Graph
  edge : Edge
  minCost : ℚ
deriving Repr

/-- One candidate step of the RRT* rewiring loop in
`RRTPlanner.add_node_to_tree`: skip the new node itself and the original
parent; skip candidates farther than `max_rewire_dist`; rewire when the
candidate route is strictly cheaper than the running `min_cost` and the
connecting segment is collision-free. -/
def rewireStep (collides : Config → Bool) (opts : RRTPlannerOptions)
    (q_new : Config) (newIdx parentIdx : Nat)
    (s : RewireState) (otherIdx : Nat) : RewireState :=
  if otherIdx = newIdx ∨ otherIdx = parentIdx then s
  else
    let other := s.tree.nodes.getD otherIdx default
    let new_distance := configuration_distance other.q q_new
    if exceedsRewireDist opts new_distance then s
    else
      let new_cost := other.cost + new_distance
      if new_cost < s.minCost then
        if !(check_collisions_along_path collides
            (discretize_joint_space_path q_new other.q opts.max_angle_step)) then
          let newEdge : Edge := ⟨otherIdx, newIdx, new_distance⟩
          { tree := { nodes := s.tree.nodes.set newIdx ⟨q_new, some otherIdx, new_cost⟩,
                      edges := (s.tree.edges.erase s.edge) ++ [newEdge] },
            edge := newEdge,
            minCost := new_cost }
        else s
      else s

/-- `RRTPlanner.add_node_to_tree`: append the new node with
`cost = parent.cost + edge.cost` (edge cost is the configuration distance,
per the spec's Edge model), then, when RRT* is enabled, run the rewiring loop
over all nodes of the tree (the new node included, skipped inside the step).
Returns the updated tree and the new node's index. -/
def add_node_to_tree (collides : Config → Bool) (opts : RRTPlannerOptions)
    (tree : Graph) (q_new : Config) (parentIdx : Nat) : Graph × Nat :=
  let newIdx := tree.nodes.length
  let parent := tree.nodes.getD parentIdx default
  let edge : Edge := ⟨parentIdx, newIdx, configuration_distance parent.q q_new⟩
  let new_node : Node := ⟨q_new, some parentIdx, parent.cost + edge.cost⟩
  let t1 : Graph := ⟨tree.nodes ++ [new_node], tree.edges ++ [edge]⟩
  if opts.rrt_star then
    let s := (List.range t1.nodes.length).foldl
      (rewireStep collides opts q_new newIdx parentIdx)
      ⟨t1, edge, new_node.cost⟩
    (s.tree, newIdx)
  else (t1, newIdx)

/-- The rewiring candidate step as the specification words it (for the
refinement claim about `add_node_to_tree`): skip the new node itself and its
CURRENT parent, skip candidates beyond `max_rewire_dist`, and rewire exactly
when `candidate.cost + distance < ` the new node's current stored cost and
the connecting segment is collision-free. -/
def rewireStepSpec (collides : Config → Bool) (opts : RRTPlannerOptions)
    (q_new : Config) (newIdx : Nat)
    (s : RewireState) (otherIdx : Nat) : RewireState :=
  let cur := s.tree.nodes.getD newIdx default
  if otherIdx = newIdx ∨ some otherIdx = cur.parent then s
  else
    let other := s.tree.nodes.getD otherIdx default
    let new_distance := configuration_distance other.q q_new
    if exceedsRewireDist opts new_distance then s
    else
      let new_cost := other.cost + new_distance
      if new_cost < cur.cost then
        if !(check_collisions_along_path collides
            (discretize_joint_space_path q_new other.q opts.max_angle_step)) then
          let newEdge : Edge := ⟨otherIdx, newIdx, new_distance⟩
          { tree := { nodes := s.tree.nodes.set newIdx ⟨q_new, some otherIdx, new_cost⟩,
                      edges := (s.tree.edges.erase s.edge) ++ [newEdge] },
            edge := newEdge,
            minCost := new_cost }
        else s
      else s

/-- `add_node_to_tree` with its rewiring loop replaced by the
specification-worded step `rewireStepSpec` (for the refinement claim). -/
def add_node_to_tree_spec (collides : Config → Bool) (opts : RRTPlannerOptions)
    (tree : Graph) (q_new : Config) (parentIdx : Nat) : Graph × Nat :=
  let newIdx := tree.nodes.length
  let parent := tree.nodes.getD parentIdx default
  let edge : Edge := ⟨parentIdx, newIdx, configuration_distance parent.q q_new⟩
  let new_node : Node := ⟨q_new, some parentIdx, parent.cost + edge.cost⟩
  let t1 : Graph := ⟨tree.nodes ++ [new_node], tree.edges ++ [edge]⟩
  if opts.rrt_star then
    let s := (List.range t1.nodes.length).foldl
      (rewireStepSpec collides opts q_new newIdx)
      ⟨t1, edge, new_node.cost⟩
    (s.tree, newIdx)
  else (t1, newIdx)

/-- Walk parent references from the node at `idx` to the root, collecting
configurations; `fuel` bounds the walk (the graph's node count suffices when
parents precede children). -/
def walkToRoot (g : Graph) : Nat → Nat → List Config
  | 0, _ => []
  | fuel + 1, idx =>
    let node := g.nodes.getD idx default
    node.q ::
      (match node.parent with
       | none => []
       | some p => walkToRoot g fuel p)

/-- `RRTPlanner.extract_path_from_trees`: reverse the walk from the start
tree's terminal node to its root, then append the walk from the goal tree's
terminal node to its root (not reversed). -/
def extract_path_from_trees (startTree : Graph) (startIdx : Nat)
    (goalTree : Graph) (goalIdx : Nat) : List Config :=
  (walkToRoot startTree startTree.nodes.length startIdx).reverse ++
    walkToRoot goalTree goalTree.nodes.length goalIdx

/-- One iteration's worth of external nondeterminism: the outcome of the
goal-biasing draw (`np.random.random() < goal_biasing_probability`) and the
uniformly-random configuration (`get_random_state`). -/
structure IterEvent where
  goalBias : Bool
  sample : Config
deriving Repr

/-- The mutable state of the growth loop inside `RRTPlanner.plan`:
both trees, the active-tree flag `start_tree_phase`, the indices of
`latest_start_tree_node` / `latest_goal_tree_node`, and `goal_found`. -/
structure LoopState where
  startTree : Graph
  goalTree : Graph
  startTreePhase : Bool
  latestStart : Nat
  latestGoal : Nat
  goalFound : Bool
deriving Repr

/-- The configuration sampled at the top of a growth iteration: on a
goal-biasing draw, the opposite tree's root configuration, otherwise the
random sample. -/
def sampleOf (q_start q_goal : Config) (phase : Bool) (ev : IterEvent) : Config :=
  if ev.goalBias then (if phase then q_goal else q_start) else ev.sample

/-- One iteration of the growth loop of `RRTPlanner.plan`: select the active
and other tree, sample, extend or connect from the nearest node, insert on
success, attempt the bridge to the other tree, and flip the phase (only
inside the success branch, as in the source). -/
def planIteration (collides : Config → Bool) (opts : RRTPlannerOptions)
    (q_start q_goal : Config) (s : LoopState) (ev : IterEvent) : LoopState :=
  let tree := if s.startTreePhase then s.startTree else s.goalTree
  let otherTree := if s.startTreePhase then s.goalTree else s.startTree
  let q_sample := sampleOf q_start q_goal s.startTreePhase ev
  let nearestIdx := get_nearest_node tree q_sample
  match extend_or_connect collides opts (tree.nodes.getD nearestIdx default).q q_sample with
  | none => s
  | some q_new =>
    let r1 := add_node_to_tree collides opts tree q_new nearestIdx
    let nearestOtherIdx := get_nearest_node otherTree q_new
    let otherQ := (otherTree.nodes.getD nearestOtherIdx default).q
    let phase' := if opts.bidirectional_rrt then !s.startTreePhase else s.startTreePhase
    if !(check_collisions_along_path collides
        (discretize_joint_space_path q_new otherQ opts.max_angle_step)) then
      let r2 := add_node_to_tree collides opts r1.1 otherQ r1.2
      if s.startTreePhase then
        { startTree := r2.1, goalTree := s.goalTree, startTreePhase := phase',
          latestStart := r2.2, latestGoal := nearestOtherIdx, goalFound := true }
      else
        { startTree := s.startTree, goalTree := r2.1, startTreePhase := phase',
          latestStart := nearestOtherIdx, latestGoal := r2.2, goalFound := true }
    else
      if s.startTreePhase then
        { startTree := r1.1, goalTree := s.goalTree, startTreePhase := phase',
          latestStart := r1.2, latestGoal := s.latestGoal, goalFound := false }
      else
        { startTree := s.startTree, goalTree := r1.1, startTreePhase := phase',
          latestStart := s.latestStart, latestGoal := r1.2, goalFound := false }

/-- The growth loop of `RRTPlanner.plan`: run iterations while the goal has
not been found and events (wall-clock budget) remain. -/
def planLoop (collides : Config → Bool) (opts : RRTPlannerOptions)
    (q_start q_goal : Config) : LoopState → List IterEvent → LoopState
  | s, [] => s
  | s, ev :: evs =>
    if s.goalFound then s
    else planLoop collides opts q_start q_goal
      (planIteration collides opts q_start q_goal s ev) evs

/-- The observable outcome of `RRTPlanner.plan`: `path = none` models the
source's `return None` on an endpoint in collision, `some []` the timeout,
`some p` a found path; the final session state is carried alongside. -/
structure PlanResult where
  path : Option (List Config)
  startTree : Graph
  goalTree : Graph
  latestStart : Nat
  latestGoal : Nat
  goalFound : Bool
deriving Repr

/-- `RRTPlanner.plan`: reset (fresh trees with the two roots at cost 0),
reject endpoints in collision, try the direct connection, run the growth
loop, and extract the path on success. -/
def plan (collides : Config → Bool) (opts : RRTPlannerOptions)
    (q_start q_goal : Config) (events : List IterEvent) : PlanResult :=
  let startTree0 : Graph := ⟨[⟨q_start, none, 0⟩], []⟩
  let goalTree0 : Graph := ⟨[⟨q_goal, none, 0⟩], []⟩
  if collides q_start then
    ⟨none, startTree0, goalTree0, 0, 0, false⟩
  else if collides q_goal then
    ⟨none, startTree0, goalTree0, 0, 0, false⟩
  else
    let directFree := !(check_collisions_along_path collides
      (discretize_joint_space_path q_start q_goal opts.max_angle_step))
    let s0 : LoopState := ⟨startTree0, goalTree0, true, 0, 0, directFree⟩
    let s := planLoop collides opts q_start q_goal s0 events
    if s.goalFound then
      ⟨some (extract_path_from_trees s.startTree s.latestStart s.goalTree s.latestGoal),
        s.startTree, s.goalTree, s.latestStart, s.latestGoal, true⟩
    else
      ⟨some [], s.startTree, s.goalTree, s.latestStart, s.latestGoal, false⟩

/-- The extend-or-connect outcome of one growth iteration, as computed inside
`planIteration` (used to state when the active tree flips). -/
def iterExtension (collides : Config → Bool) (opts : RRTPlannerOptions)
    (q_start q_goal : Config) (s : LoopState) (ev : IterEvent) : Option Config :=
  let tree := if s.startTreePhase then s.startTree else s.goalTree
  let q_sample := sampleOf q_start q_goal s.startTreePhase ev
  extend_or_connect collides opts
    (tree.nodes.getD (get_nearest_node tree q_sample) default).q q_sample

/-- A point-obstacle collision oracle: exactly the configuration `c` is in
collision (used to instantiate the external oracle on concrete runs). -/
def collidesAt (c : Config) : Config → Bool := fun q => decide (q = c)

/-- A two-point-obstacle collision oracle. -/
def collidesAt2 (c d : Config) : Config → Bool := fun q => decide (q = c ∨ q = d)

/-- The k-th configuration proposed by the extension loop (`extendCandidate 0`
is the parent itself): one `max_connection_dist` increment along the
parent-to-sample direction per step while more than `max_connection_dist`
remains, the sample itself otherwise. -/
def extendCandidate (opts : RRTPlannerOptions) (parent_q q_sample : Config)
    (k : Nat) : Config :=
  if (k : ℚ) * opts.max_connection_dist < |q_sample - parent_q| then
    parent_q + (k : ℚ) *
      (opts.max_connection_dist * (q_sample - parent_q) / |q_sample - parent_q|)
  else q_sample

/-- Validity of the k-th extension step (`k ≥ 1`): the k-th candidate is not
itself in collision and the discretized segment from the previous candidate
to it is collision-free. -/
def extendStepOk (collides : Config → Bool) (opts : RRTPlannerOptions)
    (parent_q q_sample : Config) (k : Nat) : Bool :=
  !(collides (extendCandidate opts parent_q q_sample k)) &&
    !(check_collisions_along_path collides
      (discretize_joint_space_path (extendCandidate opts parent_q q_sample (k - 1))
        (extendCandidate opts parent_q q_sample k) opts.max_angle_step))

/-- The all-clear collision oracle. -/
def collidesNever : Config → Bool := fun _ => false

/-- Fuel-bounded sum of edge costs (configuration distances) along the
parent-pointer path from node `i` to its tree's root. -/
def pathCostAux (g : Graph) : Nat → Nat → ℚ
  | 0, _ => 0
  | fuel + 1, i =>
    match (g.nodes.getD i default).parent with
    | none => 0
    | some p =>
      pathCostAux g fuel p +
        configuration_distance (g.nodes.getD p default).q (g.nodes.getD i default).q

/-- The distance-sum along the parent path from node `i` to the root (the
node count is enough fuel whenever parents precede children). -/
def pathCost (g : Graph) (i : Nat) : ℚ := pathCostAux g g.nodes.length i

/-- Structural well-formedness: every parent pointer refers to an earlier
index of the node storage (roots have no parent). -/
def parentsBelow (g : Graph) : Prop :=
  ∀ i, i < g.nodes.length →
    ((g.nodes.getD i default).parent.all fun p => decide (p < i)) = true

/-- The cost invariant: every node's stored cost equals the distance-sum
along its parent path to its tree's root. -/
def costOk (g : Graph) : Prop :=
  ∀ i, i < g.nodes.length → (g.nodes.getD i default).cost = pathCost g i

/-- Well-formedness of the growth-loop state: the latest-node indices point
into their trees, and once the goal is found the two latest nodes (the
bridge endpoints) carry the same configuration. -/
def StateWF (s : LoopState) : Prop :=
  s.latestStart < s.startTree.nodes.length ∧
  s.latestGoal < s.goalTree.nodes.length ∧
  (s.goalFound = true →
    (s.startTree.nodes.getD s.latestStart default).q =
      (s.goalTree.nodes.getD s.latestGoal default).q)

/-- A concrete two-node tree (root `0`, child `4` at cost 4) used to
instantiate theorems about `add_node_to_tree`. -/
def treeTwo : Graph := ⟨[⟨0, none, 0⟩, ⟨4, some 0, 4⟩], [⟨0, 1, 4⟩]⟩

/-- Options with RRT* rewiring enabled, used on concrete runs. -/
def optsStar : RRTPlannerOptions :=
  { max_angle_step := 2/5, max_connection_dist := 1, rrt_star := true }

/-- Options used on concrete bidirectional runs: unit connection distance,
collision-check step `2/5`. -/
def optsBi : RRTPlannerOptions :=
  { max_angle_step := 2/5, max_connection_dist := 1, bidirectional_rrt := true }

/-- The loop state at the top of the first growth iteration of
`plan collides opts 0 4 events` when neither endpoint collides and the direct
connection is blocked: both trees hold their root and the start tree is
active. -/
def sFirstIter : LoopState :=
  ⟨⟨[⟨0, none, 0⟩], []⟩, ⟨[⟨4, none, 0⟩], []⟩, true, 0, 0, false⟩

/-- Options used on concrete extend-mode runs: unit connection distance,
collision-check step `2/5`, greedy connect off. -/
def optsExt : RRTPlannerOptions :=
  { max_angle_step := 2/5, max_connection_dist := 1 }

/-- Options used on concrete connect-mode runs: unit connection distance,
collision-check step `2/5`, greedy connect on. -/
def optsConnect : RRTPlannerOptions :=
  { max_angle_step := 2/5, max_connection_dist := 1, rrt_connect := true }

/-- Every stored parent link's connecting segment, discretized at the
options' collision-check step, passes the collision check (stated in the
parent-to-child direction, the direction the growth loop validates). -/
def treeLinksFree (collides : Config → Bool) (opts : RRTPlannerOptions)
    (g : Graph) : Prop :=
  ∀ i pIdx, (g.nodes.getD i default).parent = some pIdx →
    check_collisions_along_path collides
      (discretize_joint_space_path (g.nodes.getD pIdx default).q
        (g.nodes.getD i default).q opts.max_angle_step) = false

/-- Every configuration stored in the tree is itself collision-free. -/
def nodesFree (collides : Config → Bool) (g : Graph) : Prop :=
  ∀ i, i < g.nodes.length → collides ((g.nodes.getD i default).q) = false

/-- The per-tree invariant of the growth loop: structurally well-formed
(parents precede children, stored costs are path costs) and collision-free
(configurations and parent links). -/
def TreeOk (collides : Config → Bool) (opts : RRTPlannerOptions)
    (g : Graph) : Prop :=
  parentsBelow g ∧ costOk g ∧ nodesFree collides g ∧ treeLinksFree collides opts g

/-- Both trees of the growth-loop state satisfy the per-tree invariant. -/
def LoopFree (collides : Config → Bool) (opts : RRTPlannerOptions)
    (s : LoopState) : Prop :=
  TreeOk collides opts s.startTree ∧ TreeOk collides opts s.goalTree

end RRT

namespace RRT

attribute [local semireducible] Rat.add Rat.mul Rat.inv Rat.sub

/-! ### Basic lemmas -/

theorem planLoop_of_goalFound (collides : Config → Bool) (opts : RRTPlannerOptions)
    (q_start q_goal : Config) (s : LoopState) (evs : List IterEvent)
    (h : s.goalFound = true) :
    planLoop collides opts q_start q_goal s evs = s := by
  induction evs with
  | nil => rfl
  | cons ev evs ih => simp [planLoop, h]

/-! ### C1 -/

/-- C1: if `q_start` or `q_goal` individually fails the collision oracle's
single-configuration check, `plan` fails immediately with the no-path result
and both trees still hold exactly their root node (cost 0, no parent). -/
theorem plan_rejects_colliding_endpoints (collides : Config → Bool)
    (opts : RRTPlannerOptions) (q_start q_goal : Config) (events : List IterEvent)
    (h : collides q_start = true ∨ collides q_goal = true) :
    (plan collides opts q_start q_goal events).path = none ∧
    (plan collides opts q_start q_goal events).startTree.nodes =
      [⟨q_start, none, 0⟩] ∧
    (plan collides opts q_start q_goal events).goalTree.nodes =
      [⟨q_goal, none, 0⟩] := by
  rcases h with h | h
  · simp [plan, h]
  · by_cases h1 : collides q_start = true
    · simp [plan, h1]
    · simp [plan, h1, h]

theorem plan_rejects_colliding_endpoints_witness :
    (collidesAt 0 0 = true ∨ collidesAt 0 1 = true) ∧
    ((plan (collidesAt 0) {} 0 1 []).path = none ∧
     (plan (collidesAt 0) {} 0 1 []).startTree.nodes = [⟨0, none, 0⟩] ∧
     (plan (collidesAt 0) {} 0 1 []).goalTree.nodes = [⟨1, none, 0⟩]) :=
  ⟨Or.inl (by decide),
    plan_rejects_colliding_endpoints (collidesAt 0) {} 0 1 [] (Or.inl (by decide))⟩

/-! ### C6 -/

/-- C6: if `q_start` and `q_goal` are individually collision-free and their
direct discretized interpolation is collision-free, `plan` takes the
direct-connection fast path: it returns the path `[q_start, q_goal]` (first
element the start, last the goal) and neither tree grows beyond its root. -/
theorem plan_direct_connection (collides : Config → Bool)
    (opts : RRTPlannerOptions) (q_start q_goal : Config) (events : List IterEvent)
    (h1 : collides q_start = false) (h2 : collides q_goal = false)
    (h3 : check_collisions_along_path collides
      (discretize_joint_space_path q_start q_goal opts.max_angle_step) = false) :
    ∃ p, (plan collides opts q_start q_goal events).path = some p ∧
      p.head? = some q_start ∧ p.getLast? = some q_goal ∧
      (plan collides opts q_start q_goal events).startTree.nodes.length = 1 ∧
      (plan collides opts q_start q_goal events).goalTree.nodes.length = 1 := by
  refine ⟨[q_start, q_goal], ?_⟩
  have hplan : plan collides opts q_start q_goal events =
      ⟨some [q_start, q_goal],
        ⟨[⟨q_start, none, 0⟩], []⟩, ⟨[⟨q_goal, none, 0⟩], []⟩, 0, 0, true⟩ := by
    have hloop := planLoop_of_goalFound collides opts q_start q_goal
      ⟨⟨[⟨q_start, none, 0⟩], []⟩, ⟨[⟨q_goal, none, 0⟩], []⟩, true, 0, 0, true⟩ events rfl
    simp [plan, h1, h2, h3, hloop, extract_path_from_trees, walkToRoot]
  simp [hplan]

/-! ### C2 -/

/-- C2 counterexample: with `bidirectional_rrt` enabled, a growth iteration
whose extend-or-connect produces nothing does not flip the active tree
(contradicting "flips … on every iteration … regardless").  The state is the
one reached at the top of the first loop iteration of
`plan (collidesAt2 1 (2/5)) optsBi 0 4 events`: the direct connection is
blocked by the obstacle at `2/5`, and the first extension step from the root
`0` toward the sample `4` is the blocked configuration `1`. -/
theorem planIteration_no_flip_on_failed_extension :
    optsBi.bidirectional_rrt = true ∧
    check_collisions_along_path (collidesAt2 1 (2/5))
      (discretize_joint_space_path 0 4 optsBi.max_angle_step) = true ∧
    iterExtension (collidesAt2 1 (2/5)) optsBi 0 4 sFirstIter ⟨false, 4⟩ = none ∧
    (planIteration (collidesAt2 1 (2/5)) optsBi 0 4 sFirstIter ⟨false, 4⟩).startTreePhase
      = sFirstIter.startTreePhase := by
  decide

/-- C2 (amended): with `bidirectional_rrt` enabled, a growth iteration flips
the active tree exactly when its extend-or-connect operation succeeds; on an
iteration whose extension produces nothing the whole state, the active-tree
flag included, is unchanged. -/
theorem planIteration_flip_iff_extension (collides : Config → Bool)
    (opts : RRTPlannerOptions) (q_start q_goal : Config)
    (s : LoopState) (ev : IterEvent)
    (hbi : opts.bidirectional_rrt = true) :
    (planIteration collides opts q_start q_goal s ev).startTreePhase =
      (if (iterExtension collides opts q_start q_goal s ev).isSome
       then !s.startTreePhase else s.startTreePhase) := by
  rcases hE : iterExtension collides opts q_start q_goal s ev with _ | q_new <;>
    unfold iterExtension at hE <;> unfold planIteration <;>
    simp only [List.getD_eq_getElem?_getD] at hE ⊢ <;> rw [hE]
  · simp
  · simp only [Option.isSome_some, if_true, hbi]
    split <;> split <;> simp

theorem planIteration_flip_iff_extension_witness :
    optsBi.bidirectional_rrt = true ∧
    (planIteration collidesNever optsBi 0 4 sFirstIter ⟨false, 4⟩).startTreePhase =
      (if (iterExtension collidesNever optsBi 0 4 sFirstIter ⟨false, 4⟩).isSome
       then !sFirstIter.startTreePhase else sFirstIter.startTreePhase) :=
  ⟨rfl, planIteration_flip_iff_extension collidesNever optsBi 0 4 sFirstIter ⟨false, 4⟩ rfl⟩

/-! ### Frame lemmas for the rewiring loop -/

theorem rewireStep_nodes_frame (collides : Config → Bool) (opts : RRTPlannerOptions)
    (q_new : Config) (newIdx parentIdx : Nat) (s : RewireState) (otherIdx : Nat)
    (i : Nat) (hne : i ≠ newIdx) :
    (rewireStep collides opts q_new newIdx parentIdx s otherIdx).tree.nodes[i]? =
      s.tree.nodes[i]? := by
  unfold rewireStep
  dsimp only
  split
  · rfl
  · split
    · rfl
    · split
      · split
        · exact List.getElem?_set_ne (Ne.symm hne)
        · rfl
      · rfl

theorem rewireStep_nodes_length (collides : Config → Bool) (opts : RRTPlannerOptions)
    (q_new : Config) (newIdx parentIdx : Nat) (s : RewireState) (otherIdx : Nat) :
    (rewireStep collides opts q_new newIdx parentIdx s otherIdx).tree.nodes.length =
      s.tree.nodes.length := by
  unfold rewireStep
  dsimp only
  split
  · rfl
  · split
    · rfl
    · split
      · split
        · exact List.length_set ..
        · rfl
      · rfl

theorem rewireFold_nodes_frame (collides : Config → Bool) (opts : RRTPlannerOptions)
    (q_new : Config) (newIdx parentIdx : Nat) (l : List Nat) (s : RewireState)
    (i : Nat) (hne : i ≠ newIdx) :
    ((l.foldl (rewireStep collides opts q_new newIdx parentIdx) s).tree.nodes)[i]? =
      s.tree.nodes[i]? := by
  induction l generalizing s with
  | nil => rfl
  | cons a l ih =>
    rw [List.foldl_cons, ih, rewireStep_nodes_frame]
    exact hne

theorem rewireFold_nodes_length (collides : Config → Bool) (opts : RRTPlannerOptions)
    (q_new : Config) (newIdx parentIdx : Nat) (l : List Nat) (s : RewireState) :
    ((l.foldl (rewireStep collides opts q_new newIdx parentIdx) s).tree.nodes).length =
      s.tree.nodes.length := by
  induction l generalizing s with
  | nil => rfl
  | cons a l ih =>
    rw [List.foldl_cons, ih, rewireStep_nodes_length]

theorem add_node_to_tree_nodes_frame (collides : Config → Bool)
    (opts : RRTPlannerOptions) (tree : Graph) (q_new : Config) (parentIdx : Nat)
    (i : Nat) (hi : i < tree.nodes.length) :
    (add_node_to_tree collides opts tree q_new parentIdx).1.nodes[i]? =
      tree.nodes[i]? := by
  unfold add_node_to_tree
  split
  · rw [rewireFold_nodes_frame _ _ _ _ _ _ _ _ (Nat.ne_of_lt hi)]
    exact List.getElem?_append_left hi
  · exact List.getElem?_append_left hi

/-! ### C9 -/

/-- C9: `add_node_to_tree` (rewiring included) modifies no node already in
the tree: for every index of the pre-existing nodes, the stored parent
pointer and the stored cost (indeed the whole node) are unchanged by the
call — only the newly appended node is ever edited. -/
theorem add_node_to_tree_frame (collides : Config → Bool)
    (opts : RRTPlannerOptions) (tree : Graph) (q_new : Config) (parentIdx : Nat)
    (i : Nat) (hi : i < tree.nodes.length) :
    ((add_node_to_tree collides opts tree q_new parentIdx).1.nodes.getD i default).parent
        = (tree.nodes.getD i default).parent ∧
    ((add_node_to_tree collides opts tree q_new parentIdx).1.nodes.getD i default).cost
        = (tree.nodes.getD i default).cost := by
  have hbase := add_node_to_tree_nodes_frame collides opts tree q_new parentIdx i hi
  rw [List.getD_eq_getElem?_getD, List.getD_eq_getElem?_getD, hbase]
  exact ⟨rfl, rfl⟩

theorem add_node_to_tree_frame_witness :
    (1 < (⟨[⟨0, none, 0⟩, ⟨4, some 0, 4⟩], [⟨0, 1, 4⟩]⟩ : Graph).nodes.length) ∧
    (((add_node_to_tree collidesNever
          { max_angle_step := 2/5, max_connection_dist := 1, rrt_star := true }
          ⟨[⟨0, none, 0⟩, ⟨4, some 0, 4⟩], [⟨0, 1, 4⟩]⟩ 2 0).1.nodes.getD 1 default).parent
        = ((⟨[⟨0, none, 0⟩, ⟨4, some 0, 4⟩], [⟨0, 1, 4⟩]⟩ : Graph).nodes.getD 1 default).parent ∧
     ((add_node_to_tree collidesNever
          { max_angle_step := 2/5, max_connection_dist := 1, rrt_star := true }
          ⟨[⟨0, none, 0⟩, ⟨4, some 0, 4⟩], [⟨0, 1, 4⟩]⟩ 2 0).1.nodes.getD 1 default).cost
        = ((⟨[⟨0, none, 0⟩, ⟨4, some 0, 4⟩], [⟨0, 1, 4⟩]⟩ : Graph).nodes.getD 1 default).cost) :=
  ⟨by decide,
    add_node_to_tree_frame collidesNever
      { max_angle_step := 2/5, max_connection_dist := 1, rrt_star := true }
      ⟨[⟨0, none, 0⟩, ⟨4, some 0, 4⟩], [⟨0, 1, 4⟩]⟩ 2 0 1 (by decide)⟩

/-! ### C3 -/

/-- C3: when the sampled target equals the parent node's configuration
(zero sample-to-parent distance), the extension loop terminates on its first
iteration in the pass-through branch, so its result never depends on the
increment computed by the division (any increment value gives the same
result), and `extend_or_connect` — whose division-by-zero artifact value is
thereby irrelevant — returns the explicit division-free value below rather
than propagating an error. -/
theorem extend_or_connect_degenerate (collides : Config → Bool)
    (opts : RRTPlannerOptions) (q : Config)
    (hmc : 0 ≤ opts.max_connection_dist) :
    (∀ inc fuel,
      extendLoop collides opts q inc (fuel + 1) q none =
        if !(collides q) && !(check_collisions_along_path collides
            (discretize_joint_space_path q q opts.max_angle_step))
        then some q else none) ∧
    extend_or_connect collides opts q q =
      (if !(collides q) && !(check_collisions_along_path collides
          (discretize_joint_space_path q q opts.max_angle_step))
       then some q else none) := by
  have h0 : configuration_distance q q = 0 := by
    simp [configuration_distance]
  have hlt : ¬ (configuration_distance q q > opts.max_connection_dist) := by
    rw [h0]; exact not_lt.mpr hmc
  have hstep : ∀ inc fuel,
      extendLoop collides opts q inc (fuel + 1) q none =
        if !(collides q) && !(check_collisions_along_path collides
            (discretize_joint_space_path q q opts.max_angle_step))
        then some q else none := by
    intro inc fuel
    simp only [extendLoop, if_neg hlt]
    by_cases hok : (!(collides q) && !(check_collisions_along_path collides
        (discretize_joint_space_path q q opts.max_angle_step))) = true
    · simp [hok, hlt]
    · simp only [Bool.not_eq_true] at hok
      simp [hok, hlt]
  refine ⟨hstep, ?_⟩
  show extendLoop collides opts q _ (extendFuel opts q q) q none = _
  have hfuel : extendFuel opts q q =
      ((configuration_distance q q / opts.max_connection_dist).floor.toNat + 1) + 1 := rfl
  rw [hfuel]
  exact hstep _ _

theorem extend_or_connect_degenerate_witness :
    (0 ≤ ({} : RRTPlannerOptions).max_connection_dist) ∧
    extend_or_connect collidesNever {} 0 0 =
      (if !(collidesNever 0) && !(check_collisions_along_path collidesNever
          (discretize_joint_space_path 0 0 (({} : RRTPlannerOptions).max_angle_step)))
       then some 0 else none) :=
  ⟨by norm_num,
    (extend_or_connect_degenerate collidesNever {} 0 (by norm_num)).2⟩

/-! ### C6 -/

theorem plan_direct_connection_witness :
    (collidesNever 0 = false ∧ collidesNever 1 = false ∧
      check_collisions_along_path collidesNever
        (discretize_joint_space_path 0 1 (({} : RRTPlannerOptions).max_angle_step)) = false) ∧
    (∃ p, (plan collidesNever {} 0 1 []).path = some p ∧
      p.head? = some 0 ∧ p.getLast? = some 1 ∧
      (plan collidesNever {} 0 1 []).startTree.nodes.length = 1 ∧
      (plan collidesNever {} 0 1 []).goalTree.nodes.length = 1) :=
  ⟨⟨rfl, rfl, by decide⟩,
    plan_direct_connection collidesNever {} 0 1 [] rfl rfl (by decide)⟩

/-! ### Path-cost lemmas for the RRT* invariant -/

theorem parentsBelow_some {g : Graph} (h : parentsBelow g) {i p : Nat}
    (hi : i < g.nodes.length) (hp : (g.nodes.getD i default).parent = some p) :
    p < i := by
  have hb := h i hi
  rw [hp] at hb
  simpa using hb

theorem pathCostAux_stable (g : Graph) (hpb : parentsBelow g) :
    ∀ i, i < g.nodes.length → ∀ fuel₁ fuel₂, i < fuel₁ → i < fuel₂ →
      pathCostAux g fuel₁ i = pathCostAux g fuel₂ i := by
  intro i
  induction i using Nat.strong_induction_on with
  | _ i ih =>
    intro hlen fuel₁ fuel₂ h1 h2
    obtain ⟨f1, rfl⟩ : ∃ f, fuel₁ = f + 1 := ⟨fuel₁ - 1, by omega⟩
    obtain ⟨f2, rfl⟩ : ∃ f, fuel₂ = f + 1 := ⟨fuel₂ - 1, by omega⟩
    simp only [pathCostAux]
    cases hp : (g.nodes.getD i default).parent with
    | none => rfl
    | some p =>
      have hpi : p < i := parentsBelow_some hpb hlen hp
      dsimp only
      rw [ih p hpi (by omega) f1 f2 (by omega) (by omega)]

theorem pathCostAux_agree (g g' : Graph) (m : Nat)
    (hag : ∀ j, j < m → g.nodes.getD j default = g'.nodes.getD j default)
    (hpb : ∀ j, j < m → ∀ p, (g.nodes.getD j default).parent = some p → p < j) :
    ∀ fuel i, i < m → pathCostAux g fuel i = pathCostAux g' fuel i := by
  intro fuel
  induction fuel with
  | zero => intro i _; rfl
  | succ fuel ih =>
    intro i hi
    simp only [pathCostAux]
    rw [← hag i hi]
    cases hp : (g.nodes.getD i default).parent with
    | none => rfl
    | some p =>
      have hpi : p < i := hpb i hi p hp
      dsimp only
      rw [ih p (lt_trans hpi hi), hag p (lt_trans hpi hi)]

theorem costOk_root_zero {g : Graph} (hco : costOk g) {i : Nat}
    (hi : i < g.nodes.length) (hp : (g.nodes.getD i default).parent = none) :
    (g.nodes.getD i default).cost = 0 := by
  rw [hco i hi]
  unfold pathCost
  obtain ⟨f, hf⟩ : ∃ f, g.nodes.length = f + 1 := ⟨g.nodes.length - 1, by omega⟩
  rw [hf]
  simp only [pathCostAux, hp]

theorem rewireStep_preserves_inv (collides : Config → Bool) (opts : RRTPlannerOptions)
    (q_new : Config) (newIdx parentIdx : Nat) (s : RewireState) (otherIdx : Nat)
    (hlen : s.tree.nodes.length = newIdx + 1)
    (hidx : otherIdx ≤ newIdx)
    (hpb : parentsBelow s.tree) (hco : costOk s.tree) :
    parentsBelow (rewireStep collides opts q_new newIdx parentIdx s otherIdx).tree ∧
    costOk (rewireStep collides opts q_new newIdx parentIdx s otherIdx).tree := by
  unfold rewireStep
  dsimp only
  split
  · exact ⟨hpb, hco⟩
  case isFalse hg =>
  split
  · exact ⟨hpb, hco⟩
  split
  case isFalse => exact ⟨hpb, hco⟩
  split
  case isFalse => exact ⟨hpb, hco⟩
  -- the rewired branch
  have hne : otherIdx ≠ newIdx := fun h => hg (Or.inl h)
  have hoi : otherIdx < newIdx := lt_of_le_of_ne hidx hne
  set other := s.tree.nodes.getD otherIdx default with hother
  set nd : Node := ⟨q_new, some otherIdx,
    other.cost + configuration_distance other.q q_new⟩ with hnd
  have hlt : newIdx < s.tree.nodes.length := by omega
  have hF1 : (s.tree.nodes.set newIdx nd).length = newIdx + 1 := by
    rw [List.length_set, hlen]
  have hF2 : ∀ j, j ≠ newIdx →
      (s.tree.nodes.set newIdx nd).getD j default = s.tree.nodes.getD j default := by
    intro j hj
    rw [List.getD_eq_getElem?_getD, List.getD_eq_getElem?_getD,
      List.getElem?_set_ne (Ne.symm hj)]
  have hF3 : (s.tree.nodes.set newIdx nd).getD newIdx default = nd := by
    rw [List.getD_eq_getElem?_getD, List.getElem?_set_self hlt]
    rfl
  have hpb' : parentsBelow (⟨s.tree.nodes.set newIdx nd,
      (s.tree.edges.erase s.edge) ++ [⟨otherIdx, newIdx, configuration_distance other.q q_new⟩]⟩ : Graph) := by
    intro j hj
    simp only at hj ⊢
    by_cases hjn : j = newIdx
    · subst hjn
      rw [hF3]
      simpa using hoi
    · rw [hF2 j hjn]
      exact hpb j (by rw [hF1] at hj; omega)
  refine ⟨hpb', ?_⟩
  intro j hj
  simp only at hj ⊢
  rw [hF1] at hj
  have hagree : ∀ (es : List Edge) fuel i, i < newIdx →
      pathCostAux s.tree fuel i =
        pathCostAux ⟨s.tree.nodes.set newIdx nd, es⟩ fuel i := by
    intro es
    refine pathCostAux_agree _ _ newIdx (fun j hj => (hF2 j (Nat.ne_of_lt hj)).symm) ?_
    intro j hj p hp
    exact parentsBelow_some hpb (by omega) hp
  by_cases hjn : j = newIdx
  · subst hjn
    rw [hF3]
    show nd.cost = _
    unfold pathCost
    simp only [hF1]
    rw [show pathCostAux ⟨s.tree.nodes.set j nd,
          s.tree.edges.erase s.edge ++
            [⟨otherIdx, j, configuration_distance other.q q_new⟩]⟩ (j+1) j =
        pathCostAux ⟨s.tree.nodes.set j nd,
          s.tree.edges.erase s.edge ++
            [⟨otherIdx, j, configuration_distance other.q q_new⟩]⟩ j otherIdx +
          configuration_distance
            ((s.tree.nodes.set j nd).getD otherIdx default).q
            ((s.tree.nodes.set j nd).getD j default).q from ?_]
    · rw [hF2 otherIdx hne, hF3, ← hagree _ j otherIdx hoi]
      rw [pathCostAux_stable s.tree hpb otherIdx (by omega) j s.tree.nodes.length hoi (by omega)]
      have : pathCostAux s.tree s.tree.nodes.length otherIdx = pathCost s.tree otherIdx := rfl
      rw [this, ← hco otherIdx (by omega)]
    · simp only [pathCostAux, hF3]
  · rw [hF2 j hjn]
    have hjlt : j < newIdx := by omega
    rw [hco j (by omega)]
    unfold pathCost
    simp only [hF1, hlen]
    exact hagree _ (newIdx + 1) j hjlt

theorem rewireFold_preserves_inv (collides : Config → Bool) (opts : RRTPlannerOptions)
    (q_new : Config) (newIdx parentIdx : Nat) :
    ∀ (l : List Nat) (s : RewireState),
      (∀ x ∈ l, x ≤ newIdx) →
      s.tree.nodes.length = newIdx + 1 →
      parentsBelow s.tree → costOk s.tree →
      parentsBelow ((l.foldl (rewireStep collides opts q_new newIdx parentIdx) s).tree) ∧
      costOk ((l.foldl (rewireStep collides opts q_new newIdx parentIdx) s).tree) := by
  intro l
  induction l with
  | nil => intro s _ _ hpb hco; exact ⟨hpb, hco⟩
  | cons a l ih =>
    intro s hx hlen hpb hco
    rw [List.foldl_cons]
    have step := rewireStep_preserves_inv collides opts q_new newIdx parentIdx s a
      hlen (hx a (List.mem_cons_self a l)) hpb hco
    refine ih _ (fun x hx' => hx x (List.mem_cons_of_mem _ hx')) ?_ step.1 step.2
    rw [rewireStep_nodes_length, hlen]

theorem append_node_inv (tree : Graph) (q_new : Config) (parentIdx : Nat)
    (edges' : List Edge)
    (hp : parentIdx < tree.nodes.length)
    (hpb : parentsBelow tree) (hco : costOk tree) :
    parentsBelow (⟨tree.nodes ++ [⟨q_new, some parentIdx,
        (tree.nodes.getD parentIdx default).cost +
          configuration_distance (tree.nodes.getD parentIdx default).q q_new⟩],
      edges'⟩ : Graph) ∧
    costOk (⟨tree.nodes ++ [⟨q_new, some parentIdx,
        (tree.nodes.getD parentIdx default).cost +
          configuration_distance (tree.nodes.getD parentIdx default).q q_new⟩],
      edges'⟩ : Graph) := by
  set nd : Node := ⟨q_new, some parentIdx,
    (tree.nodes.getD parentIdx default).cost +
      configuration_distance (tree.nodes.getD parentIdx default).q q_new⟩ with hnd
  have hF1 : (tree.nodes ++ [nd]).length = tree.nodes.length + 1 := by
    simp
  have hF2 : ∀ j, j < tree.nodes.length →
      (tree.nodes ++ [nd]).getD j default = tree.nodes.getD j default := by
    intro j hj
    rw [List.getD_eq_getElem?_getD, List.getD_eq_getElem?_getD,
      List.getElem?_append_left hj]
  have hF3 : (tree.nodes ++ [nd]).getD tree.nodes.length default = nd := by
    rw [List.getD_eq_getElem?_getD, List.getElem?_concat_length]
    rfl
  have hagree : ∀ fuel i, i < tree.nodes.length →
      pathCostAux tree fuel i = pathCostAux ⟨tree.nodes ++ [nd], edges'⟩ fuel i := by
    refine pathCostAux_agree _ _ tree.nodes.length (fun j hj => (hF2 j hj).symm) ?_
    intro j hj p hpj
    exact parentsBelow_some hpb hj hpj
  constructor
  · intro j hj
    simp only at hj ⊢
    rw [hF1] at hj
    by_cases hjn : j = tree.nodes.length
    · subst hjn
      rw [hF3]
      simpa using hp
    · rw [hF2 j (by omega)]
      exact hpb j (by omega)
  · intro j hj
    simp only at hj ⊢
    rw [hF1] at hj
    by_cases hjn : j = tree.nodes.length
    · subst hjn
      rw [hF3]
      show nd.cost = _
      unfold pathCost
      simp only [hF1]
      rw [show pathCostAux ⟨tree.nodes ++ [nd], edges'⟩ (tree.nodes.length + 1)
            tree.nodes.length =
          pathCostAux ⟨tree.nodes ++ [nd], edges'⟩ tree.nodes.length parentIdx +
            configuration_distance
              ((tree.nodes ++ [nd]).getD parentIdx default).q
              ((tree.nodes ++ [nd]).getD tree.nodes.length default).q from ?_]
      · rw [hF2 parentIdx hp, hF3, ← hagree tree.nodes.length parentIdx hp]
        have : pathCostAux tree tree.nodes.length parentIdx = pathCost tree parentIdx := rfl
        rw [this, ← hco parentIdx hp]
      · simp only [pathCostAux, hF3]
    · have hjlt : j < tree.nodes.length := by omega
      rw [hF2 j hjlt, hco j hjlt]
      unfold pathCost
      simp only [hF1]
      rw [pathCostAux_stable tree hpb j hjlt tree.nodes.length
        (tree.nodes.length + 1) hjlt (by omega)]
      exact hagree (tree.nodes.length + 1) j hjlt

theorem add_node_to_tree_preserves_inv (collides : Config → Bool)
    (opts : RRTPlannerOptions) (tree : Graph) (q_new : Config) (parentIdx : Nat)
    (hp : parentIdx < tree.nodes.length)
    (hpb : parentsBelow tree) (hco : costOk tree) :
    parentsBelow (add_node_to_tree collides opts tree q_new parentIdx).1 ∧
    costOk (add_node_to_tree collides opts tree q_new parentIdx).1 := by
  have base := append_node_inv tree q_new parentIdx
    (tree.edges ++ [⟨parentIdx, tree.nodes.length,
      configuration_distance (tree.nodes.getD parentIdx default).q q_new⟩])
    hp hpb hco
  unfold add_node_to_tree
  dsimp only
  split
  · refine rewireFold_preserves_inv collides opts q_new tree.nodes.length parentIdx
      _ _ ?_ ?_ base.1 base.2
    · intro x hx
      rw [List.mem_range] at hx
      simp only [List.length_append, List.length_cons, List.length_nil] at hx
      omega
    · simp
  · exact base

/-! ### Equivalence of the source rewiring step with the spec-worded step -/

theorem rewireStep_eq_self_or (collides : Config → Bool) (opts : RRTPlannerOptions)
    (q_new : Config) (newIdx parentIdx : Nat) (s : RewireState) (otherIdx : Nat) :
    rewireStep collides opts q_new newIdx parentIdx s otherIdx = s ∨
    (otherIdx ≠ newIdx ∧ otherIdx ≠ parentIdx ∧
     (s.tree.nodes.getD otherIdx default).cost +
        configuration_distance (s.tree.nodes.getD otherIdx default).q q_new < s.minCost ∧
     rewireStep collides opts q_new newIdx parentIdx s otherIdx =
       (⟨⟨(s.tree.nodes.set newIdx (⟨q_new, some otherIdx,
              (s.tree.nodes.getD otherIdx default).cost +
                configuration_distance (s.tree.nodes.getD otherIdx default).q q_new⟩ : Node)),
          ((s.tree.edges.erase s.edge) ++
            [⟨otherIdx, newIdx,
              configuration_distance (s.tree.nodes.getD otherIdx default).q q_new⟩])⟩,
         ⟨otherIdx, newIdx,
            configuration_distance (s.tree.nodes.getD otherIdx default).q q_new⟩,
         ((s.tree.nodes.getD otherIdx default).cost +
            configuration_distance (s.tree.nodes.getD otherIdx default).q q_new)⟩ : RewireState)) := by
  unfold rewireStep
  dsimp only
  split
  · exact Or.inl rfl
  case isFalse hg =>
  split
  · exact Or.inl rfl
  split
  case isFalse => exact Or.inl rfl
  case isTrue hcost =>
  split
  · exact Or.inr ⟨fun h => hg (Or.inl h), fun h => hg (Or.inr h), hcost, rfl⟩
  · exact Or.inl rfl

theorem rewireStep_inv (collides : Config → Bool) (opts : RRTPlannerOptions)
    (q_new : Config) (newIdx parentIdx : Nat) (s : RewireState) (otherIdx : Nat)
    (hlen : newIdx < s.tree.nodes.length)
    (hpar : parentIdx ≠ newIdx)
    (ha : s.minCost = (s.tree.nodes.getD newIdx default).cost) :
    (rewireStep collides opts q_new newIdx parentIdx s otherIdx).tree.nodes.length
        = s.tree.nodes.length ∧
    (rewireStep collides opts q_new newIdx parentIdx s otherIdx).minCost =
      ((rewireStep collides opts q_new newIdx parentIdx s otherIdx).tree.nodes.getD
        newIdx default).cost ∧
    (rewireStep collides opts q_new newIdx parentIdx s otherIdx).minCost ≤ s.minCost ∧
    (rewireStep collides opts q_new newIdx parentIdx s otherIdx).tree.nodes.getD
        parentIdx default = s.tree.nodes.getD parentIdx default ∧
    (∀ c, ((rewireStep collides opts q_new newIdx parentIdx s otherIdx).tree.nodes.getD
        newIdx default).parent = some c →
      (s.tree.nodes.getD newIdx default).parent = some c ∨ c = otherIdx) := by
  rcases rewireStep_eq_self_or collides opts q_new newIdx parentIdx s otherIdx with
    h | ⟨hne, hnp, hlt, h⟩
  · rw [h]
    exact ⟨rfl, ha, le_refl _, rfl, fun c hc' => Or.inl hc'⟩
  · rw [h]
    have hset : ((s.tree.nodes.set newIdx
        (⟨q_new, some otherIdx,
          (s.tree.nodes.getD otherIdx default).cost +
            configuration_distance (s.tree.nodes.getD otherIdx default).q q_new⟩ : Node)).getD
        newIdx default) =
        ⟨q_new, some otherIdx,
          (s.tree.nodes.getD otherIdx default).cost +
            configuration_distance (s.tree.nodes.getD otherIdx default).q q_new⟩ := by
      rw [List.getD_eq_getElem?_getD, List.getElem?_set_self hlen]
      rfl
    refine ⟨List.length_set .., ?_, le_of_lt hlt, ?_, ?_⟩
    · dsimp only
      rw [hset]
    · dsimp only
      rw [List.getD_eq_getElem?_getD, List.getElem?_set_ne (Ne.symm hpar),
        ← List.getD_eq_getElem?_getD]
    · intro c hc'
      dsimp only at hc'
      rw [hset] at hc'
      right
      simpa using hc'.symm

theorem rewireStep_eq_spec (collides : Config → Bool) (opts : RRTPlannerOptions)
    (q_new : Config) (newIdx parentIdx : Nat) (s : RewireState) (otherIdx : Nat)
    (ha : s.minCost = (s.tree.nodes.getD newIdx default).cost)
    (hc : s.minCost ≤ (s.tree.nodes.getD parentIdx default).cost +
        configuration_distance (s.tree.nodes.getD parentIdx default).q q_new)
    (hb : ∀ c, (s.tree.nodes.getD newIdx default).parent = some c →
        c = parentIdx ∨ c ≠ otherIdx) :
    rewireStep collides opts q_new newIdx parentIdx s otherIdx =
      rewireStepSpec collides opts q_new newIdx s otherIdx := by
  unfold rewireStep rewireStepSpec
  dsimp only
  by_cases h1 : otherIdx = newIdx
  · subst h1
    simp
  by_cases h2 : otherIdx = parentIdx
  · rw [if_pos (Or.inr h2)]
    by_cases hg2 : otherIdx = newIdx ∨
        some otherIdx = (s.tree.nodes.getD newIdx default).parent
    · rw [if_pos hg2]
    · rw [if_neg hg2]
      split
      · rfl
      · have hnc : ¬ ((s.tree.nodes.getD otherIdx default).cost +
            configuration_distance (s.tree.nodes.getD otherIdx default).q q_new <
            (s.tree.nodes.getD newIdx default).cost) := by
          rw [← ha, h2]
          exact not_lt.mpr hc
        rw [if_neg hnc]
  · have hg1 : ¬ (otherIdx = newIdx ∨ otherIdx = parentIdx) := by
      rintro (h | h)
      · exact h1 h
      · exact h2 h
    have hg2 : ¬ (otherIdx = newIdx ∨
        some otherIdx = (s.tree.nodes.getD newIdx default).parent) := by
      rintro (h | h)
      · exact h1 h
      · rcases hb otherIdx h.symm with hcp | hcp
        · exact h2 hcp
        · exact hcp rfl
    rw [if_neg hg1, if_neg hg2, ← ha]

theorem rewireFold_spec_equiv (collides : Config → Bool) (opts : RRTPlannerOptions)
    (q_new : Config) (newIdx parentIdx : Nat) :
    ∀ (l : List Nat) (s : RewireState),
      l.Nodup →
      parentIdx ≠ newIdx →
      newIdx < s.tree.nodes.length →
      s.minCost = (s.tree.nodes.getD newIdx default).cost →
      s.minCost ≤ (s.tree.nodes.getD parentIdx default).cost +
        configuration_distance (s.tree.nodes.getD parentIdx default).q q_new →
      (∀ c, (s.tree.nodes.getD newIdx default).parent = some c →
        c = parentIdx ∨ c ∉ l) →
      l.foldl (rewireStep collides opts q_new newIdx parentIdx) s =
        l.foldl (rewireStepSpec collides opts q_new newIdx) s := by
  intro l
  induction l with
  | nil => intro s _ _ _ _ _ _; rfl
  | cons a l ih =>
    intro s hnd hpar hlen ha hc hb
    have hb1 : ∀ c, (s.tree.nodes.getD newIdx default).parent = some c →
        c = parentIdx ∨ c ≠ a := by
      intro c hcp
      rcases hb c hcp with h | h
      · exact Or.inl h
      · exact Or.inr (fun hca => h (hca ▸ List.mem_cons_self a l))
    have hstep := rewireStep_eq_spec collides opts q_new newIdx parentIdx s a ha hc hb1
    have hinv := rewireStep_inv collides opts q_new newIdx parentIdx s a hlen hpar ha
    rw [List.foldl_cons, List.foldl_cons, ← hstep]
    refine ih _ (List.Nodup.of_cons hnd) hpar ?_ hinv.2.1 ?_ ?_
    · rw [hinv.1]
      exact hlen
    · calc (rewireStep collides opts q_new newIdx parentIdx s a).minCost
          ≤ s.minCost := hinv.2.2.1
        _ ≤ _ := by rw [hinv.2.2.2.1]; exact hc
    · intro c hcp
      rcases hinv.2.2.2.2 c hcp with h | h
      · rcases hb c h with hl | hl
        · exact Or.inl hl
        · exact Or.inr (fun hm => hl (List.mem_cons_of_mem _ hm))
      · subst h
        exact Or.inr ((List.nodup_cons.mp hnd).1)

/-! ### C8 -/

/-- C8: `add_node_to_tree` refines the specification's description of the
rewiring loop: it is extensionally equal to the variant whose candidate step
skips the new node itself and its CURRENT parent (plus candidates beyond
`max_rewire_dist`), rewires exactly when `candidate.cost + distance` is
strictly below the new node's current cost and the connecting segment is
collision-free, and compares subsequent candidates against the updated lower
cost. -/
theorem add_node_to_tree_rewires_per_spec (collides : Config → Bool)
    (opts : RRTPlannerOptions) (tree : Graph) (q_new : Config) (parentIdx : Nat)
    (_hrs : opts.rrt_star = true)
    (hp : parentIdx < tree.nodes.length) :
    add_node_to_tree collides opts tree q_new parentIdx =
      add_node_to_tree_spec collides opts tree q_new parentIdx := by
  unfold add_node_to_tree add_node_to_tree_spec
  dsimp only
  split
  case isFalse h => exact absurd _hrs h
  case isTrue h =>
    have hgd : ((tree.nodes ++ [(⟨q_new, some parentIdx,
        (tree.nodes.getD parentIdx default).cost +
          configuration_distance (tree.nodes.getD parentIdx default).q q_new⟩ : Node)]).getD
        tree.nodes.length default) =
        ⟨q_new, some parentIdx,
          (tree.nodes.getD parentIdx default).cost +
            configuration_distance (tree.nodes.getD parentIdx default).q q_new⟩ := by
      rw [List.getD_eq_getElem?_getD, List.getElem?_concat_length]
      rfl
    have hfold := rewireFold_spec_equiv collides opts q_new tree.nodes.length parentIdx
      (List.range (tree.nodes ++ [(⟨q_new, some parentIdx,
        (tree.nodes.getD parentIdx default).cost +
          configuration_distance (tree.nodes.getD parentIdx default).q q_new⟩ : Node)]).length)
      ⟨⟨tree.nodes ++ [⟨q_new, some parentIdx,
          (tree.nodes.getD parentIdx default).cost +
            configuration_distance (tree.nodes.getD parentIdx default).q q_new⟩],
        tree.edges ++ [⟨parentIdx, tree.nodes.length,
          configuration_distance (tree.nodes.getD parentIdx default).q q_new⟩]⟩,
       ⟨parentIdx, tree.nodes.length,
          configuration_distance (tree.nodes.getD parentIdx default).q q_new⟩,
       (tree.nodes.getD parentIdx default).cost +
          configuration_distance (tree.nodes.getD parentIdx default).q q_new⟩
      (List.nodup_range _) (Nat.ne_of_lt hp)
      (by simp)
      (by dsimp only; rw [hgd])
      (by
        dsimp only
        simp only [List.getD_eq_getElem?_getD, List.getElem?_append_left hp]
        exact le_refl _)
      (by
        dsimp only
        rw [hgd]
        intro c hcp
        exact Or.inl (by simpa using hcp.symm))
    exact congrArg (fun s : RewireState => (s.tree, tree.nodes.length)) hfold

theorem add_node_to_tree_rewires_per_spec_witness :
    (optsStar.rrt_star = true ∧ 0 < treeTwo.nodes.length) ∧
    add_node_to_tree collidesNever optsStar treeTwo 2 0 =
      add_node_to_tree_spec collidesNever optsStar treeTwo 2 0 :=
  ⟨⟨rfl, by decide⟩,
    add_node_to_tree_rewires_per_spec collidesNever optsStar treeTwo 2 0 rfl (by decide)⟩

/-! ### C4 -/

/-- C4: with `rrt_star` enabled, if every node's stored cost equals the
distance-sum along its parent path (and parents precede children) before a
call to `add_node_to_tree`, then the invariant holds after the call, root
nodes have cost 0 after the call, and moreover every individual rewiring
step inside the loop preserves the invariant (so it holds immediately after
each rewiring operation, not just at the end). -/
theorem rrt_star_cost_invariant (collides : Config → Bool)
    (opts : RRTPlannerOptions) (tree : Graph) (q_new : Config) (parentIdx : Nat)
    (_hrs : opts.rrt_star = true)
    (hp : parentIdx < tree.nodes.length)
    (hpb : parentsBelow tree) (hco : costOk tree) :
    (parentsBelow (add_node_to_tree collides opts tree q_new parentIdx).1 ∧
     costOk (add_node_to_tree collides opts tree q_new parentIdx).1 ∧
     (∀ i, i < (add_node_to_tree collides opts tree q_new parentIdx).1.nodes.length →
        ((add_node_to_tree collides opts tree q_new parentIdx).1.nodes.getD i default).parent
          = none →
        ((add_node_to_tree collides opts tree q_new parentIdx).1.nodes.getD i default).cost
          = 0)) ∧
    (∀ (s : RewireState) (otherIdx : Nat),
       s.tree.nodes.length = tree.nodes.length + 1 →
       otherIdx ≤ tree.nodes.length →
       parentsBelow s.tree → costOk s.tree →
       parentsBelow (rewireStep collides opts q_new tree.nodes.length parentIdx s otherIdx).tree ∧
       costOk (rewireStep collides opts q_new tree.nodes.length parentIdx s otherIdx).tree) := by
  have hmain := add_node_to_tree_preserves_inv collides opts tree q_new parentIdx hp hpb hco
  refine ⟨⟨hmain.1, hmain.2, ?_⟩, ?_⟩
  · intro i hi hroot
    exact costOk_root_zero hmain.2 hi hroot
  · intro s otherIdx hlen hidx hpb' hco'
    exact rewireStep_preserves_inv collides opts q_new tree.nodes.length parentIdx s
      otherIdx hlen hidx hpb' hco'

theorem rrt_star_cost_invariant_witness :
    (optsStar.rrt_star = true ∧ 0 < treeTwo.nodes.length ∧
      parentsBelow treeTwo ∧ costOk treeTwo) ∧
    (parentsBelow (add_node_to_tree collidesNever optsStar treeTwo 2 0).1 ∧
     costOk (add_node_to_tree collidesNever optsStar treeTwo 2 0).1) :=
  ⟨⟨rfl, by decide, by unfold parentsBelow; decide, by unfold costOk pathCost; decide⟩,
    ⟨(rrt_star_cost_invariant collidesNever optsStar treeTwo 2 0 rfl (by decide)
        (by unfold parentsBelow; decide) (by unfold costOk pathCost; decide)).1.1,
     (rrt_star_cost_invariant collidesNever optsStar treeTwo 2 0 rfl (by decide)
        (by unfold parentsBelow; decide) (by unfold costOk pathCost; decide)).1.2.1⟩⟩

/-! ### Arithmetic of the extension candidates (for extend_or_connect) -/

theorem extendCandidate_zero (opts : RRTPlannerOptions) (p s : Config) :
    extendCandidate opts p s 0 = p := by
  unfold extendCandidate
  simp only [Nat.cast_zero]
  by_cases h : (0 : ℚ) * opts.max_connection_dist < |s - p|
  · rw [if_pos h]
    ring
  · rw [if_neg h]
    rw [zero_mul] at h
    have h0 : |s - p| ≤ 0 := not_lt.mp h
    have hsp : s - p = 0 := abs_eq_zero.mp (le_antisymm h0 (abs_nonneg _))
    exact sub_eq_zero.mp hsp

theorem extendCandidate_dist (opts : RRTPlannerOptions) (p s : Config)
    (hmc : 0 ≤ opts.max_connection_dist)
    (k : Nat) (hk : (k : ℚ) * opts.max_connection_dist < |s - p|) :
    configuration_distance (extendCandidate opts p s k) s =
      |s - p| - (k : ℚ) * opts.max_connection_dist := by
  have hd0 : 0 < |s - p| :=
    lt_of_le_of_lt (mul_nonneg (by positivity) hmc) hk
  have ha : |s - p| ≠ 0 := ne_of_gt hd0
  unfold extendCandidate configuration_distance
  rw [if_pos hk]
  have hrw : p + (k : ℚ) *
      (opts.max_connection_dist * (s - p) / |s - p|) - s
      = (s - p) * ((k : ℚ) * opts.max_connection_dist / |s - p| - 1) := by
    field_simp
    ring
  rw [hrw, abs_mul]
  have h1 : |(k : ℚ) * opts.max_connection_dist / |s - p| - 1| =
      1 - (k : ℚ) * opts.max_connection_dist / |s - p| := by
    rw [abs_sub_comm, abs_of_nonneg]
    have : (k : ℚ) * opts.max_connection_dist / |s - p| < 1 :=
      (div_lt_one hd0).mpr hk
    linarith
  rw [h1]
  field_simp

theorem extendCandidate_succ (opts : RRTPlannerOptions) (p s : Config)
    (hmc : 0 ≤ opts.max_connection_dist)
    (k : Nat) (hk : ((k : ℚ) + 1) * opts.max_connection_dist < |s - p|) :
    extendCandidate opts p s k +
        opts.max_connection_dist * (s - p) / |s - p|
      = extendCandidate opts p s (k + 1) := by
  have hk0 : (k : ℚ) * opts.max_connection_dist < |s - p| := by
    nlinarith [hmc]
  unfold extendCandidate
  rw [if_pos hk0, if_pos (by push_cast; exact hk)]
  push_cast
  ring

theorem extendCandidate_tail (opts : RRTPlannerOptions) (p s : Config)
    (k : Nat) (hk : ¬ ((k : ℚ) * opts.max_connection_dist < |s - p|)) :
    extendCandidate opts p s k = s := by
  unfold extendCandidate
  rw [if_neg hk]

theorem extendCandidate_one_dist (opts : RRTPlannerOptions) (p s : Config)
    (hmc : 0 ≤ opts.max_connection_dist) :
    configuration_distance p (extendCandidate opts p s 1) ≤
      opts.max_connection_dist := by
  unfold extendCandidate configuration_distance
  by_cases h : ((1 : Nat) : ℚ) * opts.max_connection_dist < |s - p|
  · rw [if_pos h]
    have hd0 : 0 < |s - p| :=
      lt_of_le_of_lt (mul_nonneg (by positivity) hmc) h
    have ha : |s - p| ≠ 0 := ne_of_gt hd0
    have hrw : p - (p + ((1 : Nat) : ℚ) *
        (opts.max_connection_dist * (s - p) / |s - p|))
        = -(opts.max_connection_dist * (s - p) / |s - p|) := by
      push_cast
      ring
    rw [hrw, abs_neg, abs_div, abs_mul, abs_abs,
      abs_of_nonneg hmc, mul_div_assoc, div_self ha, mul_one]
  · rw [if_neg h]
    rw [abs_sub_comm]
    push_cast at h
    linarith [not_lt.mp h]

theorem extendLoop_isSome (collides : Config → Bool) (opts : RRTPlannerOptions)
    (s inc : Config) :
    ∀ (fuel : Nat) (q_cur : Config) (x : Config),
      (extendLoop collides opts s inc fuel q_cur (some x)).isSome = true := by
  intro fuel
  induction fuel with
  | zero => intro q_cur x; rfl
  | succ fuel ih =>
    intro q_cur x
    rw [extendLoop]
    split
    · split
      · split
        · rfl
        · exact ih _ _
      · rfl
    · split
      · split
        · rfl
        · exact ih _ _
      · rfl



theorem extendLoop_step_eq (collides : Config → Bool) (opts : RRTPlannerOptions)
    (p s : Config) (hmc : 0 < opts.max_connection_dist)
    (k : Nat) (hk : (k : ℚ) * opts.max_connection_dist < |s - p|)
    (fuel : Nat) (q_out : Option Config) :
    extendLoop collides opts s (opts.max_connection_dist * (s - p) / |s - p|)
        (fuel + 1) (extendCandidate opts p s k) q_out =
      (if extendStepOk collides opts p s (k + 1) = true then
        (if ((k : ℚ) + 1) * opts.max_connection_dist < |s - p| ∧
            opts.rrt_connect = true then
          extendLoop collides opts s
            (opts.max_connection_dist * (s - p) / |s - p|) fuel
            (extendCandidate opts p s (k + 1))
            (some (extendCandidate opts p s (k + 1)))
         else some (extendCandidate opts p s (k + 1)))
       else q_out) := by
  have hdist := extendCandidate_dist opts p s (le_of_lt hmc) k hk
  have hexp : ((k : ℚ) + 1) * opts.max_connection_dist =
      (k : ℚ) * opts.max_connection_dist + opts.max_connection_dist := by ring
  have hgtIff : configuration_distance (extendCandidate opts p s k) s >
      opts.max_connection_dist ↔
      ((k : ℚ) + 1) * opts.max_connection_dist < |s - p| := by
    rw [hdist, hexp]
    constructor <;> intro h <;> linarith
  have hqe : (if configuration_distance (extendCandidate opts p s k) s >
        opts.max_connection_dist then
        extendCandidate opts p s k +
          opts.max_connection_dist * (s - p) / |s - p|
      else s) = extendCandidate opts p s (k + 1) := by
    by_cases hgt : ((k : ℚ) + 1) * opts.max_connection_dist < |s - p|
    · rw [if_pos (hgtIff.mpr hgt)]
      exact extendCandidate_succ opts p s (le_of_lt hmc) k hgt
    · rw [if_neg (fun h => hgt (hgtIff.mp h))]
      exact (extendCandidate_tail opts p s (k + 1)
        (by push_cast; exact hgt)).symm
  have hok : (!(collides (extendCandidate opts p s (k + 1))) &&
      !(check_collisions_along_path collides
        (discretize_joint_space_path (extendCandidate opts p s k)
          (extendCandidate opts p s (k + 1)) opts.max_angle_step)))
      = extendStepOk collides opts p s (k + 1) := by
    unfold extendStepOk
    simp only [Nat.add_sub_cancel]
  rw [extendLoop, hqe, hok]
  by_cases hokv : extendStepOk collides opts p s (k + 1) = true
  · rw [if_pos hokv, if_pos hokv]
    by_cases hgt : ((k : ℚ) + 1) * opts.max_connection_dist < |s - p|
    · by_cases hcn : opts.rrt_connect = true
      · have hb : (!decide (configuration_distance (extendCandidate opts p s k) s >
            opts.max_connection_dist) || !opts.rrt_connect) = false := by
          rw [decide_eq_true (hgtIff.mpr hgt), hcn]
          rfl
        have hX : ¬ ((!decide (configuration_distance (extendCandidate opts p s k) s >
            opts.max_connection_dist) || !opts.rrt_connect) = true) := by
          rw [hb]
          exact Bool.false_ne_true
        rw [if_neg hX, if_pos ⟨hgt, hcn⟩]
      · have hcf : opts.rrt_connect = false := Bool.not_eq_true _ ▸ Bool.eq_false_iff.mpr hcn
        have hb : (!decide (configuration_distance (extendCandidate opts p s k) s >
            opts.max_connection_dist) || !opts.rrt_connect) = true := by
          rw [decide_eq_true (hgtIff.mpr hgt), hcf]
          rfl
        rw [if_pos hb, if_neg (fun h => hcn h.2)]
    · have hb : (!decide (configuration_distance (extendCandidate opts p s k) s >
          opts.max_connection_dist) || !opts.rrt_connect) = true := by
        rw [decide_eq_false (fun h => hgt (hgtIff.mp h))]
        rfl
      rw [if_pos hb, if_neg (fun h => hgt h.1)]
  · rw [if_neg hokv, if_neg hokv]


theorem extendFuel_big (opts : RRTPlannerOptions) (p s : Config)
    (hmc : 0 < opts.max_connection_dist) :
    |s - p| ≤ ((extendFuel opts p s : Nat) : ℚ) * opts.max_connection_dist := by
  unfold extendFuel configuration_distance
  have hmcne : opts.max_connection_dist ≠ 0 := ne_of_gt hmc
  set r : ℚ := |p - s| / opts.max_connection_dist with hr
  have hr0 : (0 : ℚ) ≤ r := div_nonneg (abs_nonneg _) (le_of_lt hmc)
  have hfl2 : r < (Rat.floor r : ℚ) + 1 := by
    by_contra hcon
    push_neg at hcon
    have h1 : Rat.floor r + 1 ≤ Rat.floor r :=
      Rat.le_floor.mpr (by push_cast; exact hcon)
    omega
  have hfl0 : (0 : ℤ) ≤ Rat.floor r :=
    Rat.le_floor.mpr (by push_cast; exact hr0)
  have htn : (((Rat.floor r).toNat : ℤ) : ℚ) = ((Rat.floor r : ℤ) : ℚ) := by
    rw [Int.toNat_of_nonneg hfl0]
  have hval : |s - p| = r * opts.max_connection_dist := by
    rw [hr, div_mul_cancel₀ _ hmcne, abs_sub_comm]
  rw [hval]
  push_cast
  push_cast at htn
  rw [htn]
  nlinarith [hfl2, hmc]

theorem extendLoop_from_parent (collides : Config → Bool) (opts : RRTPlannerOptions)
    (p s : Config) (hmc : 0 < opts.max_connection_dist)
    (hk : ((0 : Nat) : ℚ) * opts.max_connection_dist < |s - p|)
    (fuel : Nat) (q_out : Option Config) :
    extendLoop collides opts s (opts.max_connection_dist * (s - p) / |s - p|)
        (fuel + 1) p q_out =
      (if extendStepOk collides opts p s 1 = true then
        (if (((0 : Nat) : ℚ) + 1) * opts.max_connection_dist < |s - p| ∧
            opts.rrt_connect = true then
          extendLoop collides opts s
            (opts.max_connection_dist * (s - p) / |s - p|) fuel
            (extendCandidate opts p s 1)
            (some (extendCandidate opts p s 1))
         else some (extendCandidate opts p s 1))
       else q_out) := by
  have h0 := extendLoop_step_eq collides opts p s hmc 0 hk fuel q_out
  rw [extendCandidate_zero] at h0
  exact h0

theorem extendLoop_connect_chain (collides : Config → Bool) (opts : RRTPlannerOptions)
    (p s : Config) (hmc : 0 < opts.max_connection_dist)
    (hcn : opts.rrt_connect = true) :
    ∀ (fuel k : Nat),
      |s - p| ≤ ((k + fuel : Nat) : ℚ) * opts.max_connection_dist →
      (k : ℚ) * opts.max_connection_dist < |s - p| →
      (∀ j, 1 ≤ j → j ≤ k → extendStepOk collides opts p s j = true) →
      ∀ q, extendLoop collides opts s
          (opts.max_connection_dist * (s - p) / |s - p|) fuel
          (extendCandidate opts p s k)
          (if k = 0 then none else some (extendCandidate opts p s k)) = some q →
        ∃ m, 1 ≤ m ∧ q = extendCandidate opts p s m ∧
          (∀ j, 1 ≤ j → j ≤ m → extendStepOk collides opts p s j = true) ∧
          (q = s ∨ extendStepOk collides opts p s (m + 1) = false) := by
  intro fuel
  induction fuel with
  | zero =>
    intro k hfuel hk _ q _
    exfalso
    push_cast at hfuel
    linarith
  | succ fuel ih =>
    intro k hfuel hk hvalid q hq
    rw [extendLoop_step_eq collides opts p s hmc k hk] at hq
    by_cases hok : extendStepOk collides opts p s (k + 1) = true
    · rw [if_pos hok] at hq
      by_cases hgt : ((k : ℚ) + 1) * opts.max_connection_dist < |s - p|
      · rw [if_pos ⟨hgt, hcn⟩] at hq
        have hq2 : extendLoop collides opts s
            (opts.max_connection_dist * (s - p) / |s - p|) fuel
            (extendCandidate opts p s (k + 1))
            (if k + 1 = 0 then none
             else some (extendCandidate opts p s (k + 1))) = some q := by
          rw [if_neg (Nat.succ_ne_zero k)]
          exact hq
        refine ih (k + 1) ?_ (by push_cast; exact hgt) ?_ q hq2
        · have hcast : ((k + 1 + fuel : Nat) : ℚ) = ((k + (fuel + 1) : Nat) : ℚ) := by
            push_cast
            ring
          rw [hcast]
          exact hfuel
        · intro j hj1 hjk
          rcases Nat.lt_or_ge j (k + 1) with h | h
          · exact hvalid j hj1 (by omega)
          · have hj : j = k + 1 := by omega
            rw [hj]
            exact hok
      · rw [if_neg (fun h => hgt h.1)] at hq
        have hqe : q = extendCandidate opts p s (k + 1) := (Option.some.inj hq).symm
        refine ⟨k + 1, by omega, hqe, ?_, Or.inl ?_⟩
        · intro j hj1 hjk
          rcases Nat.lt_or_ge j (k + 1) with h | h
          · exact hvalid j hj1 (by omega)
          · have hj : j = k + 1 := by omega
            rw [hj]
            exact hok
        · rw [hqe]
          exact extendCandidate_tail opts p s (k + 1) (by push_cast; exact hgt)
    · rw [if_neg hok] at hq
      by_cases hk0 : k = 0
      · rw [if_pos hk0] at hq
        exact absurd hq (by simp)
      · rw [if_neg hk0] at hq
        have hqe : q = extendCandidate opts p s k := (Option.some.inj hq).symm
        exact ⟨k, by omega, hqe, hvalid, Or.inr (Bool.eq_false_iff.mpr hok)⟩


/-! ### C7 -/

/-- C7: `extend_or_connect` returns `none` exactly when the first proposed
step is blocked; with `rrt_connect` disabled it performs exactly one step
(its result is the first candidate, at distance at most
`max_connection_dist` from the parent); with `rrt_connect` enabled every
returned configuration is a candidate of the increment-by-
`max_connection_dist` chain toward the target with every chain step up to it
validated, and the chain stops only by accepting the target itself or at an
invalid next candidate — the farthest validated configuration reached. -/
theorem extend_or_connect_characterization (collides : Config → Bool)
    (opts : RRTPlannerOptions) (p s : Config)
    (hmc : 0 < opts.max_connection_dist) :
    (extend_or_connect collides opts p s = none ↔
      extendStepOk collides opts p s 1 = false) ∧
    (opts.rrt_connect = false →
      extend_or_connect collides opts p s =
        (if extendStepOk collides opts p s 1 = true
         then some (extendCandidate opts p s 1) else none) ∧
      (∀ q, extend_or_connect collides opts p s = some q →
        configuration_distance p q ≤ opts.max_connection_dist)) ∧
    (opts.rrt_connect = true →
      ∀ q, extend_or_connect collides opts p s = some q →
        ∃ m, 1 ≤ m ∧ q = extendCandidate opts p s m ∧
          (∀ j, 1 ≤ j → j ≤ m → extendStepOk collides opts p s j = true) ∧
          (q = s ∨ extendStepOk collides opts p s (m + 1) = false)) := by
  by_cases hd : s = p
  · subst hd
    have hdeg := (extend_or_connect_degenerate collides opts s (le_of_lt hmc)).2
    have hcand : ∀ k, extendCandidate opts s s k = s := by
      intro k
      unfold extendCandidate
      rw [if_neg]
      intro h
      have h0 : |s - s| = 0 := by simp
      rw [h0] at h
      have : (0 : ℚ) ≤ (k : ℚ) * opts.max_connection_dist := by positivity
      linarith
    have hok1 : extendStepOk collides opts s s 1 =
        (!(collides s) && !(check_collisions_along_path collides
          (discretize_joint_space_path s s opts.max_angle_step))) := by
      unfold extendStepOk
      rw [hcand 1, hcand 0]
    refine ⟨?_, fun _ => ⟨?_, ?_⟩, fun _ q hq => ?_⟩
    · rw [hdeg, hok1]
      by_cases hC : (!(collides s) && !(check_collisions_along_path collides
          (discretize_joint_space_path s s opts.max_angle_step))) = true
      · simp [hC]
      · have hC' := Bool.eq_false_iff.mpr hC
        simp [hC']
    · rw [hdeg, hok1, hcand 1]
    · intro q hq
      rw [hdeg] at hq
      have hqs : q = s := by
        by_cases hC : (!(collides s) && !(check_collisions_along_path collides
            (discretize_joint_space_path s s opts.max_angle_step))) = true
        · rw [if_pos hC] at hq
          exact (Option.some.inj hq).symm
        · rw [if_neg hC] at hq
          exact absurd hq (by simp)
      rw [hqs]
      simp [configuration_distance, le_of_lt hmc]
    · rw [hdeg] at hq
      have hC : (!(collides s) && !(check_collisions_along_path collides
          (discretize_joint_space_path s s opts.max_angle_step))) = true := by
        by_contra hC
        rw [if_neg hC] at hq
        exact absurd hq (by simp)
      rw [if_pos hC] at hq
      have hqs : q = s := (Option.some.inj hq).symm
      refine ⟨1, le_refl _, by rw [hqs, hcand 1], ?_, Or.inl hqs⟩
      intro j hj1 hj2
      have hj : j = 1 := by omega
      rw [hj, hok1]
      exact hC
  · have hk0 : ((0 : Nat) : ℚ) * opts.max_connection_dist < |s - p| := by
      push_cast
      rw [zero_mul]
      exact abs_pos.mpr (sub_ne_zero.mpr (fun h => hd h))
    obtain ⟨f, hf⟩ : ∃ f, extendFuel opts p s = f + 1 :=
      ⟨(configuration_distance p s / opts.max_connection_dist).floor.toNat + 1, rfl⟩
    have heq : extend_or_connect collides opts p s =
        extendLoop collides opts s
          (opts.max_connection_dist * (s - p) / |s - p|) (f + 1) p none := by
      unfold extend_or_connect
      rw [hf]
    have hloop := extendLoop_from_parent collides opts p s hmc hk0 f none
    refine ⟨?_, fun hcf => ⟨?_, ?_⟩, fun hct q hq => ?_⟩
    · rw [heq, hloop]
      by_cases hok1 : extendStepOk collides opts p s 1 = true
      · rw [if_pos hok1]
        constructor
        · intro hnone
          exfalso
          by_cases hcc : (((0 : Nat) : ℚ) + 1) * opts.max_connection_dist < |s - p| ∧
              opts.rrt_connect = true
          · rw [if_pos hcc] at hnone
            have := extendLoop_isSome collides opts s
              (opts.max_connection_dist * (s - p) / |s - p|) f
              (extendCandidate opts p s 1) (extendCandidate opts p s 1)
            rw [hnone] at this
            exact absurd this (by simp)
          · rw [if_neg hcc] at hnone
            exact absurd hnone (by simp)
        · intro hfalse
          rw [hok1] at hfalse
          exact absurd hfalse (by simp)
      · rw [if_neg hok1]
        simp [Bool.eq_false_iff.mpr hok1]
    · rw [heq, hloop]
      by_cases hok1 : extendStepOk collides opts p s 1 = true
      · rw [if_pos hok1, if_pos hok1, if_neg (fun h => by rw [hcf] at h; exact absurd h.2 (by simp))]
      · rw [if_neg hok1, if_neg hok1]
    · intro q hq
      rw [heq, hloop] at hq
      by_cases hok1 : extendStepOk collides opts p s 1 = true
      · rw [if_pos hok1, if_neg (fun h => by rw [hcf] at h; exact absurd h.2 (by simp))] at hq
        have hqe : q = extendCandidate opts p s 1 := (Option.some.inj hq).symm
        rw [hqe]
        exact extendCandidate_one_dist opts p s (le_of_lt hmc)
      · rw [if_neg hok1] at hq
        exact absurd hq (by simp)
    · rw [heq] at hq
      have hq0 : extendLoop collides opts s
          (opts.max_connection_dist * (s - p) / |s - p|) (f + 1)
          (extendCandidate opts p s 0)
          (if (0 : Nat) = 0 then none
           else some (extendCandidate opts p s 0)) = some q := by
        rw [extendCandidate_zero]
        exact hq
      have hfuel : |s - p| ≤ ((0 + (f + 1) : Nat) : ℚ) * opts.max_connection_dist := by
        have hbig := extendFuel_big opts p s hmc
        rw [hf] at hbig
        have hcast : ((0 + (f + 1) : Nat) : ℚ) = ((f + 1 : Nat) : ℚ) := by push_cast; ring
        rw [hcast]
        exact hbig
      exact extendLoop_connect_chain collides opts p s hmc hct (f + 1) 0
        hfuel hk0 (fun j hj1 hj2 => absurd (le_trans hj1 hj2) (by omega)) q hq0

theorem extend_or_connect_characterization_witness :
    (0 < optsBi.max_connection_dist) ∧
    (extend_or_connect (collidesAt 1) optsBi 0 4 = none ↔
      extendStepOk (collidesAt 1) optsBi 0 4 1 = false) :=
  ⟨by norm_num [optsBi],
    (extend_or_connect_characterization (collidesAt 1) optsBi 0 4
      (by norm_num [optsBi])).1⟩


/-! ### Structural lemmas for the growth loop (C10) -/

theorem nearestFold_lt (q : Config) :
    ∀ (l : List Node) (acc : Nat × Nat × ℚ) (n : Nat),
      acc.2.1 < n → acc.1 + l.length ≤ n →
      (l.foldl (nearestStep q) acc).2.1 < n := by
  intro l
  induction l with
  | nil => intro acc n h1 _; exact h1
  | cons a l ih =>
    intro acc n h1 h2
    rw [List.foldl_cons]
    refine ih _ n ?_ ?_
    · unfold nearestStep
      dsimp only
      split
      · dsimp only
        simp only [List.length_cons] at h2
        omega
      · exact h1
    · unfold nearestStep
      dsimp only
      simp only [List.length_cons] at h2
      split <;> dsimp only <;> omega

theorem get_nearest_node_lt (g : Graph) (q : Config) (h : 0 < g.nodes.length) :
    get_nearest_node g q < g.nodes.length := by
  unfold get_nearest_node
  exact nearestFold_lt q g.nodes (0, 0, _) g.nodes.length h (by omega)

theorem add_node_to_tree_length (collides : Config → Bool)
    (opts : RRTPlannerOptions) (tree : Graph) (q_new : Config) (parentIdx : Nat) :
    (add_node_to_tree collides opts tree q_new parentIdx).1.nodes.length =
      tree.nodes.length + 1 ∧
    (add_node_to_tree collides opts tree q_new parentIdx).2 = tree.nodes.length := by
  unfold add_node_to_tree
  dsimp only
  split
  · refine ⟨?_, rfl⟩
    rw [rewireFold_nodes_length]
    simp
  · exact ⟨by simp, rfl⟩

theorem rewireStep_new_q (collides : Config → Bool) (opts : RRTPlannerOptions)
    (q_new : Config) (newIdx parentIdx : Nat) (s : RewireState) (otherIdx : Nat)
    (hlen : newIdx < s.tree.nodes.length)
    (h : ((s.tree.nodes.getD newIdx default)).q = q_new) :
    (((rewireStep collides opts q_new newIdx parentIdx s otherIdx).tree.nodes.getD
      newIdx default)).q = q_new := by
  rcases rewireStep_eq_self_or collides opts q_new newIdx parentIdx s otherIdx with
    heq | ⟨_, _, _, heq⟩
  · rw [heq]
    exact h
  · rw [heq]
    dsimp only
    rw [List.getD_eq_getElem?_getD, List.getElem?_set_self hlen]
    rfl

theorem rewireFold_new_q (collides : Config → Bool) (opts : RRTPlannerOptions)
    (q_new : Config) (newIdx parentIdx : Nat) :
    ∀ (l : List Nat) (s : RewireState),
      newIdx < s.tree.nodes.length →
      ((s.tree.nodes.getD newIdx default)).q = q_new →
      (((l.foldl (rewireStep collides opts q_new newIdx parentIdx) s).tree.nodes.getD
        newIdx default)).q = q_new := by
  intro l
  induction l with
  | nil => intro s _ h; exact h
  | cons a l ih =>
    intro s hlen h
    rw [List.foldl_cons]
    refine ih _ ?_ ?_
    · rw [rewireStep_nodes_length]
      exact hlen
    · exact rewireStep_new_q collides opts q_new newIdx parentIdx s a hlen h

theorem add_node_to_tree_new_q (collides : Config → Bool)
    (opts : RRTPlannerOptions) (tree : Graph) (q_new : Config) (parentIdx : Nat) :
    (((add_node_to_tree collides opts tree q_new parentIdx).1.nodes.getD
      (add_node_to_tree collides opts tree q_new parentIdx).2 default)).q = q_new := by
  have hbase : ((tree.nodes ++ [(⟨q_new, some parentIdx,
      (tree.nodes.getD parentIdx default).cost +
        configuration_distance (tree.nodes.getD parentIdx default).q q_new⟩ : Node)]).getD
      tree.nodes.length default).q = q_new := by
    rw [List.getD_eq_getElem?_getD, List.getElem?_concat_length]
    rfl
  unfold add_node_to_tree
  dsimp only
  split
  · refine rewireFold_new_q collides opts q_new tree.nodes.length parentIdx _ _ ?_ hbase
    simp
  · exact hbase

theorem walkToRoot_head (g : Graph) (fuel idx : Nat) :
    (walkToRoot g (fuel + 1) idx).head? = some ((g.nodes.getD idx default).q) := by
  rw [walkToRoot]
  rfl

theorem walkToRoot_ne_nil (g : Graph) (fuel idx : Nat) :
    walkToRoot g (fuel + 1) idx ≠ [] := by
  rw [walkToRoot]
  exact List.cons_ne_nil _ _

theorem extract_path_junction (stree : Graph) (si : Nat) (gtree : Graph) (gi : Nat)
    (hs : 0 < stree.nodes.length) (hg : 0 < gtree.nodes.length) :
    ∃ i, (extract_path_from_trees stree si gtree gi)[i]? =
        some ((stree.nodes.getD si default).q) ∧
      (extract_path_from_trees stree si gtree gi)[i + 1]? =
        some ((gtree.nodes.getD gi default).q) := by
  obtain ⟨fs, hfs⟩ : ∃ f, stree.nodes.length = f + 1 :=
    ⟨stree.nodes.length - 1, by omega⟩
  obtain ⟨fg, hfg⟩ : ∃ f, gtree.nodes.length = f + 1 :=
    ⟨gtree.nodes.length - 1, by omega⟩
  unfold extract_path_from_trees
  rw [hfs, hfg]
  set A := walkToRoot stree (fs + 1) si with hA
  set B := walkToRoot gtree (fg + 1) gi with hB
  have hAne : A ≠ [] := walkToRoot_ne_nil stree fs si
  have hApos : 0 < A.length := List.length_pos.mpr hAne
  have hAhead : A.head? = some ((stree.nodes.getD si default).q) :=
    walkToRoot_head stree fs si
  have hBhead : B.head? = some ((gtree.nodes.getD gi default).q) :=
    walkToRoot_head gtree fg gi
  refine ⟨A.length - 1, ?_, ?_⟩
  · rw [List.getElem?_append_left (by rw [List.length_reverse]; omega)]
    rw [List.getElem?_reverse (by omega)]
    have hidx : A.length - 1 - (A.length - 1) = 0 := by omega
    rw [hidx, ← List.head?_eq_getElem?]
    exact hAhead
  · have hsum : A.length - 1 + 1 = A.length := by omega
    rw [hsum, List.getElem?_append_right (by rw [List.length_reverse])]
    rw [List.length_reverse, Nat.sub_self, ← List.head?_eq_getElem?]
    exact hBhead


theorem add_node_to_tree_idx_lt (collides : Config → Bool) (opts : RRTPlannerOptions)
    (tree : Graph) (q_new : Config) (parentIdx : Nat) :
    (add_node_to_tree collides opts tree q_new parentIdx).2 <
      (add_node_to_tree collides opts tree q_new parentIdx).1.nodes.length := by
  obtain ⟨ha, hb⟩ := add_node_to_tree_length collides opts tree q_new parentIdx
  omega

theorem planIteration_wf (collides : Config → Bool) (opts : RRTPlannerOptions)
    (q_start q_goal : Config) (s : LoopState) (ev : IterEvent)
    (h : StateWF s) :
    StateWF (planIteration collides opts q_start q_goal s ev) := by
  obtain ⟨h1, h2, h3⟩ := h
  have hgpos : 0 < s.goalTree.nodes.length := by omega
  have hspos : 0 < s.startTree.nodes.length := by omega
  rcases hE : iterExtension collides opts q_start q_goal s ev with _ | q_new <;>
    unfold iterExtension at hE <;> unfold planIteration <;>
    simp only [] at hE ⊢ <;> rw [hE] <;> dsimp only
  · exact ⟨h1, h2, h3⟩
  · split <;> split <;> refine ⟨?_, ?_, fun hgf => ?_⟩ <;> dsimp only
    · exact add_node_to_tree_idx_lt ..
    · exact get_nearest_node_lt _ _ hgpos
    · exact add_node_to_tree_new_q ..
    · exact add_node_to_tree_idx_lt ..
    · exact h2
    · simp at hgf
    · exact get_nearest_node_lt _ _ hspos
    · exact add_node_to_tree_idx_lt ..
    · exact (add_node_to_tree_new_q ..).symm
    · exact h1
    · exact add_node_to_tree_idx_lt ..
    · simp at hgf

theorem planLoop_wf (collides : Config → Bool) (opts : RRTPlannerOptions)
    (q_start q_goal : Config) :
    ∀ (evs : List IterEvent) (s : LoopState), StateWF s →
      StateWF (planLoop collides opts q_start q_goal s evs) := by
  intro evs
  induction evs with
  | nil => intro s h; exact h
  | cons ev evs ih =>
    intro s h
    rw [planLoop]
    split
    · exact h
    · exact ih _ (planIteration_wf collides opts q_start q_goal s ev h)


/-! ### C10 -/

/-- C10: a successful run that finds the goal through the growth loop (the
direct connection being blocked) returns a path holding the bridging
configuration -- the configuration of the start tree's latest node, a copy of
the other tree's nearest node's configuration inserted by the bridge -- twice
in consecutive positions, one occurrence per parent-walk of the extraction. -/
theorem plan_bridge_duplicate (collides : Config → Bool) (opts : RRTPlannerOptions)
    (q_start q_goal : Config) (events : List IterEvent) (p : List Config)
    (hdirect : check_collisions_along_path collides
      (discretize_joint_space_path q_start q_goal opts.max_angle_step) = true)
    (hpath : (plan collides opts q_start q_goal events).path = some p)
    (hfound : (plan collides opts q_start q_goal events).goalFound = true) :
    ∃ i, p[i]? = some (((plan collides opts q_start q_goal events).startTree.nodes.getD
        (plan collides opts q_start q_goal events).latestStart default).q) ∧
      p[i + 1]? = some (((plan collides opts q_start q_goal events).startTree.nodes.getD
        (plan collides opts q_start q_goal events).latestStart default).q) := by
  have hcs : collides q_start = false := by
    by_contra hc
    rw [Bool.not_eq_false] at hc
    unfold plan at hpath
    simp only [] at hpath
    rw [if_pos hc] at hpath
    simp at hpath
  have hcg : collides q_goal = false := by
    by_contra hc
    rw [Bool.not_eq_false] at hc
    unfold plan at hpath
    simp only [] at hpath
    rw [if_neg (by simp [hcs]), if_pos hc] at hpath
    simp at hpath
  unfold plan at hpath hfound ⊢
  simp only [] at hpath hfound ⊢
  rw [if_neg (by simp [hcs]), if_neg (by simp [hcg]), hdirect] at hpath
  rw [if_neg (by simp [hcs]), if_neg (by simp [hcg]), hdirect] at hfound
  rw [if_neg (by simp [hcs]), if_neg (by simp [hcg]), hdirect]
  simp only [Bool.not_true] at hpath hfound ⊢
  set s := planLoop collides opts q_start q_goal
    ⟨⟨[⟨q_start, none, 0⟩], []⟩, ⟨[⟨q_goal, none, 0⟩], []⟩, true, 0, 0, false⟩
    events with hsdef
  have hwf : StateWF s := by
    rw [hsdef]
    exact planLoop_wf collides opts q_start q_goal events _
      ⟨by simp, by simp, fun h => absurd h (by simp)⟩
  obtain ⟨h1, h2, h3⟩ := hwf
  rcases hsg : s.goalFound with _ | _
  · rw [hsg] at hfound
    rw [if_neg (by simp)] at hfound
    simp at hfound
  · rw [if_pos hsg] at hpath
    dsimp only at hpath
    obtain rfl := Option.some.inj hpath
    obtain ⟨i, hi1, hi2⟩ := extract_path_junction s.startTree s.latestStart
      s.goalTree s.latestGoal (by omega) (by omega)
    refine ⟨i, hi1, ?_⟩
    show (extract_path_from_trees s.startTree s.latestStart s.goalTree
        s.latestGoal)[i + 1]? =
      some ((s.startTree.nodes.getD s.latestStart default).q)
    rw [hi2, h3 hsg]

theorem plan_bridge_duplicate_witness :
    ∃ i, ([0, 1, 4, 4] : List Config)[i]? =
        some (((plan (collidesAt (2/5)) optsExt 0 4 [⟨true, 0⟩]).startTree.nodes.getD
          (plan (collidesAt (2/5)) optsExt 0 4 [⟨true, 0⟩]).latestStart default).q) ∧
      ([0, 1, 4, 4] : List Config)[i + 1]? =
        some (((plan (collidesAt (2/5)) optsExt 0 4 [⟨true, 0⟩]).startTree.nodes.getD
          (plan (collidesAt (2/5)) optsExt 0 4 [⟨true, 0⟩]).latestStart default).q) :=
  plan_bridge_duplicate (collidesAt (2/5)) optsExt 0 4 [⟨true, 0⟩] [0, 1, 4, 4]
    (by decide) (by decide) (by decide)


/-! ### C5 helper lemmas: symmetry and degeneracy of the discretized check -/

theorem check_discretize_imp (collides : Config → Bool) (a b step : ℚ)
    (h : check_collisions_along_path collides
      (discretize_joint_space_path b a step) = true) :
    check_collisions_along_path collides
      (discretize_joint_space_path a b step) = true := by
  unfold check_collisions_along_path discretize_joint_space_path at h ⊢
  dsimp only at h ⊢
  rw [configuration_distance, abs_sub_comm b a, ← configuration_distance] at h
  set n := max 1 ((configuration_distance a b / step).ceil.toNat) with hn
  rw [List.any_eq_true] at h ⊢
  obtain ⟨x, hx, hcx⟩ := h
  rw [List.mem_map] at hx
  obtain ⟨k, hk, rfl⟩ := hx
  rw [List.mem_range] at hk
  have hkn : k ≤ n := Nat.le_of_lt_succ hk
  have hnpos : (0 : ℚ) < (n : ℚ) := by
    have : 1 ≤ n := le_max_left 1 _
    exact_mod_cast Nat.lt_of_lt_of_le Nat.zero_lt_one this
  have harg : a + ((n - k : ℕ) : ℚ) * (b - a) / (n : ℚ)
      = b + (k : ℚ) * (a - b) / (n : ℚ) := by
    rw [Nat.cast_sub hkn]
    field_simp
    ring
  refine ⟨a + ((n - k : ℕ) : ℚ) * (b - a) / (n : ℚ), ?_, ?_⟩
  · rw [List.mem_map]
    exact ⟨n - k, List.mem_range.mpr (by omega), rfl⟩
  · rw [harg]
    exact hcx

theorem check_discretize_symm (collides : Config → Bool) (a b step : ℚ) :
    check_collisions_along_path collides (discretize_joint_space_path b a step) =
    check_collisions_along_path collides (discretize_joint_space_path a b step) := by
  rcases h1 : check_collisions_along_path collides
      (discretize_joint_space_path b a step) with _ | _
  · rcases h2 : check_collisions_along_path collides
        (discretize_joint_space_path a b step) with _ | _
    · rfl
    · rw [check_discretize_imp collides b a step h2] at h1
      exact h1.symm
  · exact (check_discretize_imp collides a b step h1).symm

theorem check_discretize_self (collides : Config → Bool) (c step : ℚ)
    (h : collides c = false) :
    check_collisions_along_path collides
      (discretize_joint_space_path c c step) = false := by
  unfold check_collisions_along_path discretize_joint_space_path
  dsimp only
  rw [List.any_eq_false]
  intro x hx
  rw [List.mem_map] at hx
  obtain ⟨k, _, rfl⟩ := hx
  simp [sub_self, h]

/-! ### C5 helper lemmas: the single-step extension validates its segment -/

theorem extend_one_step (collides : Config → Bool) (opts : RRTPlannerOptions)
    (parent_q q_sample q_new : Config)
    (hconn : opts.rrt_connect = false)
    (h : extend_or_connect collides opts parent_q q_sample = some q_new) :
    collides q_new = false ∧
    check_collisions_along_path collides
      (discretize_joint_space_path parent_q q_new opts.max_angle_step) = false := by
  unfold extend_or_connect at h
  obtain ⟨m, hm⟩ : ∃ m, extendFuel opts parent_q q_sample = m + 1 :=
    ⟨(configuration_distance parent_q q_sample /
        opts.max_connection_dist).floor.toNat + 1, rfl⟩
  rw [hm, extendLoop] at h
  split at h <;> split at h <;>
    first
    | (rename_i hok2
       rw [hconn] at h
       rw [if_pos (by simp)] at h
       obtain rfl := Option.some.inj h
       rw [Bool.and_eq_true, Bool.not_eq_true', Bool.not_eq_true'] at hok2
       exact hok2)
    | exact absurd h (by simp)


/-! ### C5 helper lemmas: the insertion call preserves the invariants -/

theorem add_node_to_tree_nodesFree (collides : Config → Bool)
    (opts : RRTPlannerOptions) (tree : Graph) (q_new : Config) (parentIdx : Nat)
    (hfree : nodesFree collides tree) (hq : collides q_new = false) :
    nodesFree collides (add_node_to_tree collides opts tree q_new parentIdx).1 := by
  intro i hi
  obtain ⟨hlen, hidx⟩ := add_node_to_tree_length collides opts tree q_new parentIdx
  rw [hlen] at hi
  rcases Nat.lt_or_ge i tree.nodes.length with hlt | hge
  · have hframe := add_node_to_tree_nodes_frame collides opts tree q_new parentIdx i hlt
    rw [List.getD_eq_getElem?_getD, hframe, ← List.getD_eq_getElem?_getD]
    exact hfree i hlt
  · have hieq : i = tree.nodes.length := by omega
    subst hieq
    have hnew := add_node_to_tree_new_q collides opts tree q_new parentIdx
    rw [hidx] at hnew
    rw [hnew]
    exact hq

theorem rewireStep_links (collides : Config → Bool) (opts : RRTPlannerOptions)
    (q_new : Config) (newIdx parentIdx : Nat) (s : RewireState) (otherIdx : Nat)
    (hlen : newIdx < s.tree.nodes.length)
    (hq : (s.tree.nodes.getD newIdx default).q = q_new)
    (hfree : treeLinksFree collides opts s.tree) :
    treeLinksFree collides opts
      (rewireStep collides opts q_new newIdx parentIdx s otherIdx).tree := by
  unfold rewireStep
  dsimp only
  split
  · exact hfree
  case isFalse hg =>
  split
  · exact hfree
  split
  case isFalse => exact hfree
  split
  case isFalse => exact hfree
  case isTrue hchk =>
  have hne : otherIdx ≠ newIdx := fun h => hg (Or.inl h)
  set node' : Node := ⟨q_new, some otherIdx,
    (s.tree.nodes.getD otherIdx default).cost +
      configuration_distance (s.tree.nodes.getD otherIdx default).q q_new⟩ with hnode
  have hqj : ∀ j, (((s.tree.nodes.set newIdx node').getD j default)).q =
      ((s.tree.nodes.getD j default)).q := by
    intro j
    by_cases hj : j = newIdx
    · subst hj
      rw [List.getD_eq_getElem?_getD, List.getElem?_set_self hlen,
        ← List.getD_eq_getElem?_getD] at *
      rw [hq]
      rfl
    · rw [List.getD_eq_getElem?_getD, List.getElem?_set_ne (fun h => hj h.symm),
        ← List.getD_eq_getElem?_getD]
  intro i pIdx hp
  dsimp only
  by_cases hi : i = newIdx
  · subst hi
    rw [List.getD_eq_getElem?_getD, List.getElem?_set_self hlen] at hp
    have hpo : pIdx = otherIdx := by
      simp only [Option.getD_some] at hp
      exact (Option.some.inj hp).symm
    rw [hpo]
    rw [hqj otherIdx, hqj i, hq]
    rw [check_discretize_symm]
    rw [Bool.not_eq_true'] at hchk
    exact hchk
  · rw [List.getD_eq_getElem?_getD, List.getElem?_set_ne (fun h => hi h.symm),
      ← List.getD_eq_getElem?_getD] at hp
    rw [hqj, hqj]
    exact hfree i pIdx hp

theorem rewireFold_links (collides : Config → Bool) (opts : RRTPlannerOptions)
    (q_new : Config) (newIdx parentIdx : Nat) :
    ∀ (l : List Nat) (s : RewireState),
      newIdx < s.tree.nodes.length →
      (((s.tree.nodes.getD newIdx default)).q = q_new) →
      treeLinksFree collides opts s.tree →
      treeLinksFree collides opts
        ((l.foldl (rewireStep collides opts q_new newIdx parentIdx) s).tree) := by
  intro l
  induction l with
  | nil => intro s _ _ h; exact h
  | cons a l ih =>
    intro s hlen hq hfree
    rw [List.foldl_cons]
    refine ih _ ?_ ?_ ?_
    · rw [rewireStep_nodes_length]
      exact hlen
    · exact rewireStep_new_q collides opts q_new newIdx parentIdx s a hlen hq
    · exact rewireStep_links collides opts q_new newIdx parentIdx s a hlen hq hfree

theorem append_node_links (collides : Config → Bool) (opts : RRTPlannerOptions)
    (tree : Graph) (q_new : Config) (parentIdx : Nat) (cost : ℚ)
    (edges' : List Edge)
    (hp : parentIdx < tree.nodes.length)
    (hpb : parentsBelow tree)
    (hfree : treeLinksFree collides opts tree)
    (hseg : check_collisions_along_path collides
      (discretize_joint_space_path ((tree.nodes.getD parentIdx default)).q q_new
        opts.max_angle_step) = false) :
    treeLinksFree collides opts
      (⟨tree.nodes ++ [⟨q_new, some parentIdx, cost⟩], edges'⟩ : Graph) := by
  intro i pIdx hlink
  dsimp only at hlink ⊢
  have hgetlt : ∀ j, j < tree.nodes.length →
      ((tree.nodes ++ [(⟨q_new, some parentIdx, cost⟩ : Node)]).getD j default) =
        tree.nodes.getD j default := by
    intro j hj
    rw [List.getD_eq_getElem?_getD, List.getElem?_append_left hj,
      ← List.getD_eq_getElem?_getD]
  rcases Nat.lt_trichotomy i tree.nodes.length with hlt | heq | hgt
  · rw [hgetlt i hlt] at hlink ⊢
    have hbelow := hpb i hlt
    rw [hlink] at hbelow
    simp only [Option.all_some, decide_eq_true_eq] at hbelow
    rw [hgetlt pIdx (Nat.lt_trans hbelow hlt)]
    exact hfree i pIdx hlink
  · subst heq
    have hlenD : ((tree.nodes ++ [(⟨q_new, some parentIdx, cost⟩ : Node)]).getD
        tree.nodes.length default) = ⟨q_new, some parentIdx, cost⟩ := by
      rw [List.getD_eq_getElem?_getD, List.getElem?_concat_length]
      rfl
    rw [hlenD] at hlink ⊢
    have hpo : pIdx = parentIdx := (Option.some.inj hlink).symm
    rw [hpo]
    rw [hgetlt parentIdx hp]
    exact hseg
  · rw [List.getD_eq_getElem?_getD, List.getElem?_eq_none (by
      simp only [List.length_append, List.length_cons, List.length_nil]
      omega)] at hlink
    simp at hlink

theorem add_node_to_tree_links (collides : Config → Bool)
    (opts : RRTPlannerOptions) (tree : Graph) (q_new : Config) (parentIdx : Nat)
    (hp : parentIdx < tree.nodes.length)
    (hpb : parentsBelow tree)
    (hfree : treeLinksFree collides opts tree)
    (hseg : check_collisions_along_path collides
      (discretize_joint_space_path ((tree.nodes.getD parentIdx default)).q q_new
        opts.max_angle_step) = false) :
    treeLinksFree collides opts
      (add_node_to_tree collides opts tree q_new parentIdx).1 := by
  have base := append_node_links collides opts tree q_new parentIdx
    ((tree.nodes.getD parentIdx default).cost +
      configuration_distance (tree.nodes.getD parentIdx default).q q_new)
    (tree.edges ++ [⟨parentIdx, tree.nodes.length,
      configuration_distance (tree.nodes.getD parentIdx default).q q_new⟩])
    hp hpb hfree hseg
  unfold add_node_to_tree
  dsimp only
  split
  · refine rewireFold_links collides opts q_new tree.nodes.length parentIdx _ _
      ?_ ?_ base
    · simp
    · rw [List.getD_eq_getElem?_getD, List.getElem?_concat_length]
      rfl
  · exact base

theorem add_node_to_tree_treeOk (collides : Config → Bool)
    (opts : RRTPlannerOptions) (tree : Graph) (q_new : Config) (parentIdx : Nat)
    (hp : parentIdx < tree.nodes.length)
    (hok : TreeOk collides opts tree)
    (hq : collides q_new = false)
    (hseg : check_collisions_along_path collides
      (discretize_joint_space_path ((tree.nodes.getD parentIdx default)).q q_new
        opts.max_angle_step) = false) :
    TreeOk collides opts (add_node_to_tree collides opts tree q_new parentIdx).1 := by
  obtain ⟨hpb, hco, hnf, hlf⟩ := hok
  obtain ⟨hpb', hco'⟩ := add_node_to_tree_preserves_inv collides opts tree q_new
    parentIdx hp hpb hco
  exact ⟨hpb', hco',
    add_node_to_tree_nodesFree collides opts tree q_new parentIdx hnf hq,
    add_node_to_tree_links collides opts tree q_new parentIdx hp hpb hlf hseg⟩


/-! ### C5 helper lemmas: the growth loop preserves the invariants -/

theorem planIteration_free (collides : Config → Bool) (opts : RRTPlannerOptions)
    (q_start q_goal : Config) (s : LoopState) (ev : IterEvent)
    (hconn : opts.rrt_connect = false)
    (hwf : StateWF s) (hfree : LoopFree collides opts s) :
    LoopFree collides opts (planIteration collides opts q_start q_goal s ev) := by
  obtain ⟨h1, h2, h3⟩ := hwf
  obtain ⟨hokS, hokG⟩ := hfree
  have hgpos : 0 < s.goalTree.nodes.length := by omega
  have hspos : 0 < s.startTree.nodes.length := by omega
  rcases hE : iterExtension collides opts q_start q_goal s ev with _ | q_new <;>
    unfold iterExtension at hE <;> unfold planIteration <;>
    simp only [] at hE ⊢ <;> rw [hE] <;> dsimp only
  · exact ⟨hokS, hokG⟩
  · rcases hph : s.startTreePhase with _ | _ <;>
      simp only [hph, Bool.false_eq_true, Bool.true_eq_false, eq_self_iff_true,
        if_true, if_false] at hE ⊢ <;>
      obtain ⟨hqnew, hseg⟩ := extend_one_step collides opts _ _ q_new hconn hE
    · split
      next hbr =>
        rw [Bool.not_eq_true'] at hbr
        refine ⟨hokS, ?_⟩
        have hok1 : TreeOk collides opts (add_node_to_tree collides opts s.goalTree
            q_new (get_nearest_node s.goalTree (sampleOf q_start q_goal false ev))).1 :=
          add_node_to_tree_treeOk collides opts s.goalTree q_new _
            (get_nearest_node_lt _ _ hgpos) hokG hqnew hseg
        refine add_node_to_tree_treeOk collides opts _ _ _
          (add_node_to_tree_idx_lt ..) hok1 ?_ ?_
        · exact hokS.2.2.1 _ (get_nearest_node_lt _ _ hspos)
        · rw [add_node_to_tree_new_q]
          exact hbr
      next hbr =>
        refine ⟨hokS, ?_⟩
        exact add_node_to_tree_treeOk collides opts s.goalTree q_new _
          (get_nearest_node_lt _ _ hgpos) hokG hqnew hseg
    · split
      next hbr =>
        rw [Bool.not_eq_true'] at hbr
        refine ⟨?_, hokG⟩
        have hok1 : TreeOk collides opts (add_node_to_tree collides opts s.startTree
            q_new (get_nearest_node s.startTree (sampleOf q_start q_goal true ev))).1 :=
          add_node_to_tree_treeOk collides opts s.startTree q_new _
            (get_nearest_node_lt _ _ hspos) hokS hqnew hseg
        refine add_node_to_tree_treeOk collides opts _ _ _
          (add_node_to_tree_idx_lt ..) hok1 ?_ ?_
        · exact hokG.2.2.1 _ (get_nearest_node_lt _ _ hgpos)
        · rw [add_node_to_tree_new_q]
          exact hbr
      next hbr =>
        refine ⟨?_, hokG⟩
        exact add_node_to_tree_treeOk collides opts s.startTree q_new _
          (get_nearest_node_lt _ _ hspos) hokS hqnew hseg

theorem planLoop_free (collides : Config → Bool) (opts : RRTPlannerOptions)
    (q_start q_goal : Config) (hconn : opts.rrt_connect = false) :
    ∀ (evs : List IterEvent) (s : LoopState), StateWF s →
      LoopFree collides opts s →
      LoopFree collides opts (planLoop collides opts q_start q_goal s evs) := by
  intro evs
  induction evs with
  | nil => intro s _ h; exact h
  | cons ev evs ih =>
    intro s hwf h
    rw [planLoop]
    split
    · exact h
    · exact ih _ (planIteration_wf collides opts q_start q_goal s ev hwf)
        (planIteration_free collides opts q_start q_goal s ev hconn hwf h)


/-! ### C5 helper lemmas: parent walks give collision-checked chains -/

theorem walkToRoot_chain (collides : Config → Bool) (opts : RRTPlannerOptions)
    (g : Graph) (hfree : treeLinksFree collides opts g) :
    ∀ (fuel idx : Nat),
      List.Chain' (fun x y => check_collisions_along_path collides
        (discretize_joint_space_path y x opts.max_angle_step) = false)
        (walkToRoot g fuel idx) := by
  intro fuel
  induction fuel with
  | zero => intro idx; exact List.chain'_nil
  | succ f ih =>
    intro idx
    rw [walkToRoot]
    rcases hp : (g.nodes.getD idx default).parent with _ | pIdx
    · exact List.chain'_singleton _
    · refine List.chain'_cons'.mpr ⟨?_, ih pIdx⟩
      intro y hy
      rcases f with _ | f2
      · exact absurd hy (by simp [show walkToRoot g 0 pIdx = [] from rfl])
      · rw [walkToRoot_head, Option.mem_def] at hy
        have hyy := Option.some.inj hy
        rw [← hyy]
        exact hfree idx pIdx hp

theorem chain_pairs (R : Config → Config → Prop) (l : List Config)
    (h : List.Chain' R l) :
    ∀ i a b, l[i]? = some a → l[i + 1]? = some b → R a b := by
  intro i a b ha hb
  rw [List.getElem?_eq_some] at ha hb
  obtain ⟨hi, ha'⟩ := ha
  obtain ⟨hi1, hb'⟩ := hb
  rw [← ha', ← hb']
  have hlt : i < l.length - 1 := by omega
  have := List.chain'_iff_get.mp h i hlt
  simpa using this


/-- The per-tree invariant holds for a fresh single-root tree whose root
configuration is collision-free. -/
theorem rootTreeOk (collides : Config → Bool) (opts : RRTPlannerOptions)
    (q : Config) (hq : collides q = false) :
    TreeOk collides opts (⟨[⟨q, none, 0⟩], []⟩ : Graph) := by
  refine ⟨?_, ?_, ?_, ?_⟩
  · intro i hi
    have hi0 : i = 0 := by
      simp only [List.length_cons, List.length_nil] at hi
      omega
    subst hi0
    rfl
  · intro i hi
    have hi0 : i = 0 := by
      simp only [List.length_cons, List.length_nil] at hi
      omega
    subst hi0
    rfl
  · intro i hi
    have hi0 : i = 0 := by
      simp only [List.length_cons, List.length_nil] at hi
      omega
    subst hi0
    simpa using hq
  · intro i pIdx hp
    rcases i with _ | i2
    · simp at hp
    · rw [List.getD_eq_getElem?_getD, List.getElem?_eq_none (by simp)] at hp
      simp at hp

/-! ### C5 -/

/-- C5 counterexample: in greedy-connect mode the run below returns the path
`[0, 4, 4, 4]`, whose consecutive pair `(0, 4)` re-discretizes (at the
options' collision-check step) to a segment that hits the obstacle at `2/5`:
the greedy extension validates its unit increments one by one, but the full
parent-to-new segment it inserts is never re-validated as a whole. -/
theorem plan_connect_pair_in_collision :
    (plan (collidesAt (2/5)) optsConnect 0 4 [⟨true, 0⟩]).path =
      some [0, 4, 4, 4] ∧
    ([0, 4, 4, 4] : List Config)[0]? = some 0 ∧
    ([0, 4, 4, 4] : List Config)[0 + 1]? = some 4 ∧
    check_collisions_along_path (collidesAt (2/5))
      (discretize_joint_space_path 0 4 optsConnect.max_angle_step) = true :=
  ⟨by decide, by decide, by decide, by decide⟩

/-- C5 (amended): with greedy connect disabled (`rrt_connect = false`), every
pair of consecutive configurations of a path returned by `plan` has a
collision-free discretized segment at the options' collision-check step. -/
theorem plan_path_pairs_collision_free (collides : Config → Bool)
    (opts : RRTPlannerOptions) (q_start q_goal : Config) (events : List IterEvent)
    (p : List Config)
    (hconn : opts.rrt_connect = false)
    (hpath : (plan collides opts q_start q_goal events).path = some p) :
    ∀ i a b, p[i]? = some a → p[i + 1]? = some b →
      check_collisions_along_path collides
        (discretize_joint_space_path a b opts.max_angle_step) = false := by
  suffices hchain : List.Chain' (fun a b => check_collisions_along_path collides
      (discretize_joint_space_path a b opts.max_angle_step) = false) p by
    intro i a b ha hb
    exact chain_pairs _ p hchain i a b ha hb
  have hcs : collides q_start = false := by
    by_contra hc
    rw [Bool.not_eq_false] at hc
    unfold plan at hpath
    simp only [] at hpath
    rw [if_pos hc] at hpath
    simp at hpath
  have hcg : collides q_goal = false := by
    by_contra hc
    rw [Bool.not_eq_false] at hc
    unfold plan at hpath
    simp only [] at hpath
    rw [if_neg (by simp [hcs]), if_pos hc] at hpath
    simp at hpath
  unfold plan at hpath
  simp only [] at hpath
  rw [if_neg (by simp [hcs]), if_neg (by simp [hcg])] at hpath
  rcases hd : check_collisions_along_path collides
      (discretize_joint_space_path q_start q_goal opts.max_angle_step) with _ | _
  · -- the direct connection is collision-free: the fast path
    rw [hd] at hpath
    simp only [Bool.not_false] at hpath
    rw [planLoop_of_goalFound collides opts q_start q_goal _ events rfl] at hpath
    rw [if_pos rfl] at hpath
    dsimp only at hpath
    obtain rfl := Option.some.inj hpath
    have hextract : extract_path_from_trees
        (⟨[⟨q_start, none, 0⟩], []⟩ : Graph) 0
        (⟨[⟨q_goal, none, 0⟩], []⟩ : Graph) 0 = [q_start, q_goal] := rfl
    rw [hextract]
    exact List.chain'_pair.mpr hd
  · -- the direct connection is blocked: the growth loop ran
    rw [hd] at hpath
    simp only [Bool.not_true] at hpath
    set s := planLoop collides opts q_start q_goal
      ⟨⟨[⟨q_start, none, 0⟩], []⟩, ⟨[⟨q_goal, none, 0⟩], []⟩, true, 0, 0, false⟩
      events with hsdef
    have hwf : StateWF s := by
      rw [hsdef]
      exact planLoop_wf collides opts q_start q_goal events _
        ⟨by simp, by simp, fun h => absurd h (by simp)⟩
    have hfree : LoopFree collides opts s := by
      rw [hsdef]
      exact planLoop_free collides opts q_start q_goal hconn events _
        ⟨by simp, by simp, fun h => absurd h (by simp)⟩
        ⟨rootTreeOk collides opts q_start hcs, rootTreeOk collides opts q_goal hcg⟩
    obtain ⟨h1, h2, h3⟩ := hwf
    obtain ⟨hokS, hokG⟩ := hfree
    rcases hsg : s.goalFound with _ | _
    · rw [hsg, if_neg (by simp)] at hpath
      dsimp only at hpath
      obtain rfl := Option.some.inj hpath
      exact List.chain'_nil
    · rw [if_pos hsg] at hpath
      dsimp only at hpath
      obtain rfl := Option.some.inj hpath
      obtain ⟨fs, hfs⟩ : ∃ f, s.startTree.nodes.length = f + 1 :=
        ⟨s.startTree.nodes.length - 1, by omega⟩
      obtain ⟨fg, hfg⟩ : ∃ f, s.goalTree.nodes.length = f + 1 :=
        ⟨s.goalTree.nodes.length - 1, by omega⟩
      unfold extract_path_from_trees
      rw [hfs, hfg]
      rw [List.chain'_append]
      refine ⟨?_, ?_, ?_⟩
      · rw [List.chain'_reverse]
        exact walkToRoot_chain collides opts s.startTree hokS.2.2.2 (fs + 1)
          s.latestStart
      · refine List.Chain'.imp ?_
          (walkToRoot_chain collides opts s.goalTree hokG.2.2.2 (fg + 1)
            s.latestGoal)
        intro a b hab
        rw [← check_discretize_symm]
        exact hab
      · intro x hx y hy
        rw [List.getLast?_reverse, walkToRoot_head, Option.mem_def] at hx
        rw [walkToRoot_head, Option.mem_def] at hy
        rw [← Option.some.inj hx, ← Option.some.inj hy]
        rw [← h3 hsg]
        exact check_discretize_self collides _ opts.max_angle_step
          (hokS.2.2.1 s.latestStart h1)

theorem plan_path_pairs_collision_free_witness :
    check_collisions_along_path (collidesAt (2/5))
      (discretize_joint_space_path 0 1 optsExt.max_angle_step) = false :=
  plan_path_pairs_collision_free (collidesAt (2/5)) optsExt 0 4 [⟨true, 0⟩]
    [0, 1, 4, 4] rfl (by decide) 0 0 1 (by decide) (by decide)

end RRT
